import Mathlib

/-!
Shallow embedding of the MarkXS parser (`parse_xs.py`) and proofs about it.

Python strings are modelled as `List Char` (one entry per code point), and a
document as `List (List Char)` of physical lines, as produced by `splitlines`.
Whitespace is the ASCII subset of Python's `str.strip` / `\s` class, which is
all that the parser's inputs contain.  Dictionaries built by the parser are
modelled as structures whose optional keys become `Option` fields, set exactly
when the Python code sets the key.  Loops are rendered as structural recursions
over the unread suffix of the input (carrying the absolute index as an extra
argument) so that concrete runs reduce inside the kernel; loops whose cursor
jumps by a variable amount carry a fuel argument that the wrapper instantiates
with a bound that the Python loop's progress argument shows is sufficient.
-/

namespace MarkXS

abbrev Chars := List Char

/-- Python whitespace class (`str.strip`, regex `\s`), ASCII subset. -/
def isPySpace (c : Char) : Bool :=
  c == ' ' || c == '\t' || c == '\n' || c == '\x0b' || c == '\x0c' || c == '\r'

/-- Python `s.lstrip()`. -/
def lstripWS (s : Chars) : Chars := s.dropWhile isPySpace

/-- Python `s.rstrip()`. -/
def rstripWS (s : Chars) : Chars := (s.reverse.dropWhile isPySpace).reverse

/-- Python `s.strip()`. -/
def stripWS (s : Chars) : Chars := rstripWS (lstripWS s)

/-- Python truthiness test `not line.strip()`. -/
def isBlankLine (s : Chars) : Bool := stripWS s == []

/-- Python slice `s[i:j]` (for `i ≤ j`; clamps like Python). -/
def pySlice (s : Chars) (i j : Nat) : Chars := (s.drop i).take (j - i)

/-- Python `str.split(sep)` for a one-character separator: keeps empty chunks,
`"".split(sep) = [""]`. -/
def pySplit (sep : Char) : Chars → List Chars
  | [] => [[]]
  | c :: rest =>
    if c == sep then [] :: pySplit sep rest
    else
      match pySplit sep rest with
      | s :: ss => (c :: s) :: ss
      | [] => [[c]]

/-- Python `s.find(pat)` scan from absolute index `i`: first index at which
`pat` is a prefix of the rest of `s`. -/
def findSubAux (pat : Chars) : List Char → Nat → Option Nat
  | [], i => if pat.isEmpty then some i else none
  | c :: rest, i =>
    if pat.isPrefixOf (c :: rest) then some i else findSubAux pat rest (i + 1)

/-- Python substring search `s.index(pat)` / `pat in s`. -/
def findSub (pat : Chars) (s : Chars) : Option Nat := findSubAux pat s 0

/-- Last index at which character `a` occurs in `s`. -/
def lastIdxOf (a : Char) : Chars → Option Nat
  | [] => none
  | c :: rest =>
    match lastIdxOf a rest with
    | some j => some (j + 1)
    | none => if c == a then some 0 else none

/-- The backtick character (code point 96). -/
def backtick : Char := Char.ofNat 96

/-- The fence delimiter `` ``` `` used by `FENCE_RE` and the closing-line test. -/
def fenceMarker : Chars := [backtick, backtick, backtick]

/-- A run of `k` spaces, Python `" " * k`. -/
def spacesN (k : Nat) : Chars := List.replicate k ' '

/-- Python `" ".join(xs)`. -/
def joinSpace : List Chars → Chars
  | [] => []
  | [x] => x
  | x :: rest => x ++ ' ' :: joinSpace rest

/-- Character class `[A-Z]`. -/
def isUpperCh (c : Char) : Bool := 'A' ≤ c && c ≤ 'Z'

/-- Character class `[A-Za-z0-9_-]` shared by `METADATA_RE` and `LABEL_RE`. -/
def isWordCh (c : Char) : Bool := c.isAlpha || c.isDigit || c == '_' || c == '-'

/-- Matcher for `p+( p+)*`: one or more `p`-words separated by single spaces.
The flag records whether the scan is at a (mandatory) word start. -/
def isWordSeqAux (p : Char → Bool) : Bool → Chars → Bool
  | needWord, [] => !needWord
  | needWord, c :: rest =>
    if c == ' ' then if needWord then false else isWordSeqAux p true rest
    else if p c then isWordSeqAux p false rest
    else false

def isWordSeq (p : Char → Bool) (s : Chars) : Bool := isWordSeqAux p true s

/-- Python `int(ds)` on a string of decimal digits. -/
def digitsVal (ds : Chars) : Nat :=
  ds.foldl (fun acc c => acc * 10 + (c.toNat - '0'.toNat)) 0

/-- Decimal rendering of a natural number, Python `str(n)`. -/
def natDigits (n : Nat) : Chars := (Nat.repr n).data

/-- Python `'.'.join(map(str, ns))`. -/
def dotted : List Nat → Chars
  | [] => []
  | [n] => natDigits n
  | n :: rest => natDigits n ++ '.' :: dotted rest

/-! ## Location and AST model (`make_loc` and the node dictionaries) -/

structure Pos where
  line : Nat
  column : Nat
deriving DecidableEq, Repr

structure Loc where
  start : Pos
  stop : Pos
deriving DecidableEq, Repr

/-- Translation of `make_loc(sl, sc, el, ec)` (all call sites pass four
arguments). `stop` is Python's `"end"` key. -/
def makeLoc (startLine startCol endLine endCol : Nat) : Loc :=
  ⟨⟨startLine, startCol⟩, ⟨endLine, endCol⟩⟩

inductive Severity where
  | error
  | warning
deriving DecidableEq, Repr

inductive DiagCode where
  | EMPTY
  | HEADER_INVALID
  | INLINE_COMMENT_ILLEGAL
  | SECTION_PARENT_MISSING
  | FENCE_UNTERMINATED
  | FENCE_IN_TABLE
deriving DecidableEq, Repr

/-- Diagnostic dictionaries; their `loc` is a bare line/column point. -/
structure Diagnostic where
  severity : Severity
  message : Chars
  code : DiagCode
  loc : Pos
deriving DecidableEq, Repr

inductive InlineNode where
  | Text (value : Chars) (loc : Loc)
  | InlineCode (code : Chars) (loc : Loc)
  | InlineLabel (identifier : Chars) (text : Option Chars) (loc : Loc)
  | InlineComment (text : Chars) (loc : Loc)
deriving DecidableEq, Repr

structure Header where
  tag : Chars
  text : Chars
  loc : Loc
deriving DecidableEq, Repr

structure MetadataEntry where
  key : Chars
  value : Chars
  loc : Loc
deriving DecidableEq, Repr

/-- Table rows; `loc` is `none` only for the loc-less placeholder header row
that `parse_table` builds for an empty row list. -/
structure TableRow where
  cells : List Chars
  loc : Option Loc
deriving DecidableEq, Repr

/-- Bullet items; `continuation` is present exactly when the Python dict gets
the key (a non-empty continuation list). -/
structure BulletItem where
  marker : Char
  inline : List InlineNode
  continuation : Option (List Chars)
  loc : Loc
deriving DecidableEq, Repr

inductive Block where
  | BlankLine (loc : Loc)
  | WholeLineComment (text : Chars) (loc : Loc)
  | FencedCodeBlock (infoString : Option Chars) (indent : Nat) (content : List Chars) (loc : Loc)
  | Table (header : TableRow) (align : Option TableRow) (rows : List TableRow) (loc : Loc)
  | Section (number : List Nat) (title : Chars) (description : Option Chars)
      (level : Nat) (body : List Block) (loc : Loc)
  | BulletList (items : List BulletItem) (loc : Loc)
  | Paragraph (inline : List InlineNode) (loc : Loc)

/-- Documents; `diagnostics = []` models the omitted `"diagnostics"` key. -/
structure Document where
  header : Option Header
  metadata : List MetadataEntry
  body : List Block
  diagnostics : List Diagnostic

/-! ## The regular expressions, as deterministic matchers

Each `*_RE` of the source is a fixed pattern whose backtracking behaviour
collapses to a deterministic scan; the matchers below implement that scan.
-/

/-- `HEADER_RE = ^([A-Z]+(?: [A-Z]+)*)\: (.+)$`.  The tag cannot contain a
colon, so the only candidate split is at the first colon of the line. -/
def headerMatch (line : Chars) : Option (Chars × Chars) :=
  match line.findIdx? (fun c => c == ':') with
  | none => none
  | some p =>
    let tag := line.take p
    if isWordSeq isUpperCh tag then
      match line.drop (p + 1) with
      | ' ' :: rest => if rest.isEmpty then none else some (tag, rest)
      | _ => none
    else none

/-- `METADATA_RE = ^\s*([A-Za-z0-9_-]+(?: [A-Za-z0-9_-]+)*): (.*)$`. -/
def metadataMatch (line : Chars) : Option (Chars × Chars) :=
  let trimmed := line.dropWhile isPySpace
  match trimmed.findIdx? (fun c => c == ':') with
  | none => none
  | some p =>
    let key := trimmed.take p
    if isWordSeq isWordCh key then
      match trimmed.drop (p + 1) with
      | ' ' :: value => some (key, value)
      | _ => none
    else none

/-- Validation of the dotted-number region against `\d+(?:\.\d+)*\.?`:
the chunks split on `.` must all be non-empty digit strings, except that a
single trailing empty chunk records the optional final dot. -/
def validNumComps (comps : List Chars) : Option (List Nat) :=
  let comps' := if comps.getLast? == some ([] : Chars) then comps.dropLast else comps
  if comps'.isEmpty then none
  else if comps'.all (fun c => !c.isEmpty && c.all Char.isDigit) then
    some (comps'.map digitsVal)
  else none

/-- Title group `[A-Z](?:[A-Z ]*[A-Z])?`: non-empty, uppercase letters and
spaces only, first and last characters uppercase. -/
def titleShape (t : Chars) : Bool :=
  match t.head?, t.getLast? with
  | some a, some b => isUpperCh a && isUpperCh b && t.all (fun c => isUpperCh c || c == ' ')
  | _, _ => false

/-- `SECTION_RE = ^(\d+(?:\.\d+)*)\.? ([A-Z](?:[A-Z ]*[A-Z])?)(?:: (.*))?$`.
The number part consumes the maximal digits-and-dots region (the regex fails
whenever that region is not exactly `\d+(\.\d+)*\.?`), a space is mandatory,
and the title cannot contain a colon, so the optional description starts at
the first colon after the number, which must be followed by a space. -/
def sectionMatch (line : Chars) : Option (List Nat × Chars × Option Chars) :=
  let region := line.takeWhile (fun c => c.isDigit || c == '.')
  match validNumComps (pySplit '.' region) with
  | none => none
  | some num =>
    match line.drop region.length with
    | ' ' :: r =>
      match r.findIdx? (fun c => c == ':') with
      | none => if titleShape r then some (num, r, none) else none
      | some ci =>
        let title := r.take ci
        if titleShape title then
          match r.drop (ci + 1) with
          | ' ' :: desc => some (num, title, some desc)
          | _ => none
        else none
    | _ => none

/-- `BULLET_RE = ^(\s*)([-*+]) (.+)$`; returns `(len(group 1), marker, text)`. -/
def bulletMatch (line : Chars) : Option (Nat × Char × Chars) :=
  let ws := line.takeWhile isPySpace
  match line.drop ws.length with
  | m :: ' ' :: rest =>
    if (m == '-' || m == '*' || m == '+') && !rest.isEmpty then
      some (ws.length, m, rest)
    else none
  | _ => none

/-- `TABLE_RE = ^\s*\|` (prefix match). -/
def tableMatch (line : Chars) : Bool :=
  (line.dropWhile isPySpace).head? == some '|'

/-- `FENCE_RE = ^(\s*)```(.*)$`; returns `(len(group 1), group 2)`. -/
def fenceMatch (line : Chars) : Option (Nat × Chars) :=
  let ws := line.takeWhile isPySpace
  let rest := line.drop ws.length
  if fenceMarker.isPrefixOf rest then some (ws.length, rest.drop 3) else none

/-- `COMMENT_RE = ^\s*#` (prefix match). -/
def commentMatch (line : Chars) : Bool :=
  (line.dropWhile isPySpace).head? == some '#'

/-! ## Inline lexer (`parse_inline`, `parse_inline_without_comment`,
`parse_labels_into`, `LABEL_RE`, and the inline-comment strippers) -/

/-- `LABEL_RE.search(text, pos)` scan.  The first argument is `text[i:]`, the
second the absolute index `i`.  A match at `s` is a maximal `[A-Za-z0-9_-]+`
run immediately followed by a colon; the result is Python's
`(match.start(), match.end(), match.group(1))`. -/
def labelScan : List Char → Nat → Option (Nat × Nat × Chars)
  | [], _ => none
  | c :: rest, i =>
    if isWordCh c then
      let run := (c :: rest).takeWhile isWordCh
      if (c :: rest).get? run.length == some ':' then some (i, i + run.length + 1, run)
      else labelScan rest (i + 1)
    else labelScan rest (i + 1)

def labelSearchFrom (text : Chars) (pos : Nat) : Option (Nat × Nat × Chars) :=
  labelScan (text.drop pos) pos

/-- Body of the `parse_labels_into` while-loop.  Its cursor jumps from `pos`
to the end of the current label's trailing text, which is strictly larger, so
`text.length + 1` fuel always suffices. -/
def parseLabelsLoop (text : Chars) (lineNo baseCol : Nat) : Nat → Nat → List InlineNode
  | 0, _ => []
  | fuel + 1, pos =>
    match labelSearchFrom text pos with
    | none =>
      let remaining := pySlice text pos text.length
      if remaining.isEmpty then []
      else [.Text remaining (makeLoc lineNo (baseCol + pos) lineNo (baseCol + text.length))]
    | some (s, e1, ident) =>
      let pre : List InlineNode :=
        if pos < s then
          [.Text (pySlice text pos s) (makeLoc lineNo (baseCol + pos) lineNo (baseCol + s))]
        else []
      let endPos :=
        match labelSearchFrom text e1 with
        | some (s2, _, _) => s2
        | none => text.length
      let trailing := pySlice text e1 endPos
      pre ++ .InlineLabel ident (if trailing.isEmpty then none else some trailing)
              (makeLoc lineNo (baseCol + s) lineNo (baseCol + endPos))
          :: parseLabelsLoop text lineNo baseCol fuel endPos

/-- `parse_labels_into(text, out, line_no, base_col)`, returning the nodes it
appends to `out`. -/
def parseLabelsInto (text : Chars) (lineNo baseCol : Nat) : List InlineNode :=
  parseLabelsLoop text lineNo baseCol (text.length + 1) 0

/-- Main loop of `parse_inline_without_comment`.  The first list argument is
`text[i:]`; `i`, `codeStart`, `plainStart`, `inCode` and the accumulated
result mirror the Python locals. -/
def piwcLoop (text : Chars) (lineNo startCol : Nat) :
    List Char → Nat → Nat → Nat → Bool → List InlineNode → List InlineNode
  | [], _, codeStart, plainStart, inCode, acc =>
    let plainStart' := if inCode then codeStart - 1 else plainStart
    if plainStart' < text.length then
      acc ++ parseLabelsInto (pySlice text plainStart' text.length) lineNo (startCol + plainStart')
    else acc
  | ch :: rest, i, codeStart, plainStart, inCode, acc =>
    if ch == backtick then
      if inCode then
        piwcLoop text lineNo startCol rest (i + 1) codeStart (i + 1) false
          (acc ++ [.InlineCode (pySlice text codeStart i)
                      (makeLoc lineNo (startCol + codeStart) lineNo (startCol + i))])
      else
        let acc' :=
          if plainStart < i then
            acc ++ parseLabelsInto (pySlice text plainStart i) lineNo (startCol + plainStart)
          else acc
        piwcLoop text lineNo startCol rest (i + 1) (i + 1) plainStart true acc'
    else
      piwcLoop text lineNo startCol rest (i + 1) codeStart plainStart inCode acc

/-- `parse_inline_without_comment(text, line_no, start_col)`. -/
def parseInlineWithoutComment (text : Chars) (lineNo startCol : Nat) : List InlineNode :=
  piwcLoop text lineNo startCol text 0 0 0 false []

/-- Scan for the first `i#` marker outside backtick spans.  The first argument
is `text[i:]`, the second the absolute index, the third the in-code flag.
This is the common core of the comment-position loop of `parse_inline` and of
both comment strippers: all three toggle on every backtick and test
`startswith("i#", i)` with the toggled flag (the test cannot fire on the
backtick itself, so checking after the toggle is equivalent for all three). -/
def inlineCommentScan : List Char → Nat → Bool → Option Nat
  | [], _, _ => none
  | c :: rest, i, inCode =>
    let inCode' := if c == backtick then !inCode else inCode
    if !inCode' && c == 'i' && rest.head? == some '#' then some i
    else inlineCommentScan rest (i + 1) inCode'

/-- `parse_inline(text, allow_inline_comment, line_no, start_col)`. -/
def parseInline (text : Chars) (allowInlineComment : Bool) (lineNo startCol : Nat) :
    List InlineNode :=
  let commentPos := if allowInlineComment then inlineCommentScan text 0 false else none
  match commentPos with
  | some p =>
    parseInlineWithoutComment (pySlice text 0 p) lineNo startCol ++
      [.InlineComment (lstripWS (pySlice text (p + 2) text.length))
          (makeLoc lineNo (startCol + p) lineNo (startCol + text.length))]
  | none => parseInlineWithoutComment text lineNo startCol

/-- `strip_inline_comment_for_detection(line)`. -/
def stripInlineCommentForDetection (line : Chars) : Chars :=
  match inlineCommentScan line 0 false with
  | some i => rstripWS (pySlice line 0 i)
  | none => line

/-- `strip_illegal_inline_comment(line, line_no, diagnostics)`, returning the
cleaned line and the diagnostics it appends. -/
def stripIllegalInlineComment (line : Chars) (lineNo : Nat) : Chars × List Diagnostic :=
  match inlineCommentScan line 0 false with
  | some i =>
    (rstripWS (pySlice line 0 i),
     [⟨.warning, "Inline comment not allowed in this context; stripped before parsing.".data,
       .INLINE_COMMENT_ILLEGAL, ⟨lineNo, i + 1⟩⟩])
  | none => (line, [])

/-! ## Table extractor (`parse_table`) -/

/-- Cell derivation of one row:
`[cell.strip() for cell in row.strip().split("|")[1:-1]]`. -/
def pyRowCells (row : Chars) : List Chars :=
  (((pySplit '|' (stripWS row)).drop 1).dropLast).map stripWS

/-- The `for idx, row in enumerate(rows)` loop of `parse_table`; `i` is the
running `idx`. -/
def parseTableRowsLoop (startLine : Nat) : List Chars → Nat → List TableRow × List Diagnostic
  | [], _ => ([], [])
  | row :: rest, i =>
    (⟨pyRowCells row,
      some (makeLoc (startLine + i) 1 (startLine + i) ((rstripWS row).length + 1))⟩
       :: (parseTableRowsLoop startLine rest (i + 1)).1,
     (match findSub fenceMarker row with
      | some col =>
        [⟨.error, "Fenced code block delimiter inside table is not allowed.".data,
          .FENCE_IN_TABLE, ⟨startLine + i, col + 1⟩⟩]
      | none => []) ++ (parseTableRowsLoop startLine rest (i + 1)).2)

/-- `parse_table(rows, diagnostics, start_line)`, returning the node and the
diagnostics it appends. -/
def parseTable (rows : List Chars) (startLine : Nat) : Block × List Diagnostic :=
  let parsedRows := (parseTableRowsLoop startLine rows 0).1
  let ds := (parseTableRowsLoop startLine rows 0).2
  let headerRow := parsedRows.head?.getD ⟨[], none⟩
  let alignRow := parsedRows.get? 1
  let dataRows := parsedRows.drop 2
  let endLine := if rows.isEmpty then startLine else startLine + rows.length - 1
  let endCol :=
    match rows.getLast? with
    | some last => (rstripWS last).length + 1
    | none => 1
  (.Table headerRow alignRow dataRows (makeLoc startLine 1 endLine endCol), ds)

/-! ## Fenced-block extractor (the fence arm of `parse_document`) -/

/-- The closing-line test of the fence loop:
`l2.startswith(" " * fence_indent + "```") and l2.strip() == "```"`. -/
def closesFence (k : Nat) (l : Chars) : Bool :=
  (spacesN k ++ fenceMarker).isPrefixOf l && stripWS l == fenceMarker

/-- The content-collection loop; the argument is `lines[idx:]` for the `idx`
just past the opening fence.  Returns `(content, closed, closing_line_text)`. -/
def fenceScan (k : Nat) : List Chars → List Chars × Bool × Chars
  | [] => ([], false, [])
  | l :: rest =>
    if closesFence k l then ([], true, l)
    else
      (l :: (fenceScan k rest).1, (fenceScan k rest).2.1, (fenceScan k rest).2.2)

/-- The whole fence arm of `parse_document`, entered with `lines[idx]` the
opening fence of indent `k` and (already stripped) info string `info`.
Returns the node, the diagnostics appended, and the new `idx`. -/
def fenceBlockStep (lines : List Chars) (idx k : Nat) (info : Option Chars) :
    Block × List Diagnostic × Nat :=
  let scanned := fenceScan k (lines.drop (idx + 1))
  let content := scanned.1
  let closed := scanned.2.1
  let closingText := scanned.2.2
  let fsl := idx + 1
  let endLineNo := fsl + content.length + (if closed then 1 else 0)
  let endCol :=
    if !closingText.isEmpty then closingText.length + 1
    else
      match content.getLast? with
      | some last => last.length + 1
      | none => 1
  let ds : List Diagnostic :=
    if closed then []
    else
      [⟨.error, "Unterminated fenced code block".data, .FENCE_UNTERMINATED,
        ⟨fsl + content.length, 1⟩⟩]
  (.FencedCodeBlock info k content (makeLoc fsl 1 endLineNo endCol), ds,
   (idx + 1) + content.length + (if closed then 1 else 0))

/-! ## Section tree (`add_block` and `place_section`)

Python keeps the open sections on a stack of references into the (mutable)
tree.  Here the tree is the root block list and each stack entry stores the
section's number together with the path of body indices that its reference
denotes; `appendAt` performs the `target_body.append(block)` mutation at such
a path.  The stack top (Python `section_stack[-1]`) is the head of the list.
-/

structure OpenSec where
  number : List Nat
  path : List Nat
deriving DecidableEq, Repr

/-- Append `b` to the body reached by following `path` (the root list for
`[]`, otherwise descending into the `Section` body at each index). -/
def appendAt : List Nat → List Block → Block → List Block
  | [], blocks, b => blocks ++ [b]
  | i :: rest, blocks, b =>
    match blocks.get? i with
    | some (.Section num t d lv bd loc) => blocks.set i (.Section num t d lv (appendAt rest bd b) loc)
    | _ => blocks

/-- Length of the body reached by following `path` (used to compute the index
a fresh append receives). -/
def bodyLenAt : List Nat → List Block → Nat
  | [], blocks => blocks.length
  | i :: rest, blocks =>
    match blocks.get? i with
    | some (.Section _ _ _ _ bd _) => bodyLenAt rest bd
    | _ => 0

/-- `add_block(body, section_stack, block)`. -/
def addBlock (body : List Block) (stack : List OpenSec) (b : Block) : List Block :=
  match stack with
  | [] => body ++ [b]
  | top :: _ => appendAt top.path body b

def missingParentMsg (pn : List Nat) : Chars :=
  "Missing parent section ".data ++ dotted pn ++ "; attached to document root.".data

/-- `place_section(body, section_stack, section, diagnostics, line_no)`:
pop to depth, look for the parent by number, attach (with recovery to the
root plus a warning when the parent is absent), and push. -/
def placeSection (body : List Block) (stack : List OpenSec) (num : List Nat)
    (sec : Block) (lineNo : Nat) : List Block × List OpenSec × List Diagnostic :=
  let stack' := stack.dropWhile (fun e => decide (num.length ≤ e.number.length))
  let parentNumber := num.dropLast
  if parentNumber.isEmpty then
    (body ++ [sec], ⟨num, [body.length]⟩ :: stack', [])
  else
    match stack'.find? (fun e => e.number == parentNumber) with
    | some p =>
      (appendAt p.path body sec, ⟨num, p.path ++ [bodyLenAt p.path body]⟩ :: stack', [])
    | none =>
      (body ++ [sec], ⟨num, [body.length]⟩ :: stack',
       [⟨.warning, missingParentMsg parentNumber, .SECTION_PARENT_MISSING, ⟨lineNo, 1⟩⟩])

/-! ## Document parser (`parse_header`, the metadata loop, the body loop) -/

/-- `parse_header(line, line_no, diagnostics)`, returning the header and the
diagnostics it appends. -/
def parseHeader (line : Chars) (lineNo : Nat) : Option Header × List Diagnostic :=
  match headerMatch line with
  | none =>
    (none, [⟨.error, "Invalid or missing header line".data, .HEADER_INVALID, ⟨lineNo, 1⟩⟩])
  | some (tag, txt) => (some ⟨tag, txt, makeLoc lineNo 1 lineNo (line.length + 1)⟩, [])

/-- The metadata while-loop; first argument `lines[idx:]`, second the absolute
`idx`.  Returns the entries, the diagnostics appended, and the final `idx`
(a blank line is consumed, a non-matching line is not). -/
def metadataScan : List Chars → Nat → List MetadataEntry × List Diagnostic × Nat
  | [], idx => ([], [], idx)
  | line :: rest, idx =>
    if isBlankLine line then ([], [], idx + 1)
    else
      match metadataMatch line with
      | none => ([], [], idx)
      | some _ =>
        let d1 := (stripIllegalInlineComment line (idx + 1)).2
        match metadataMatch (stripIllegalInlineComment line (idx + 1)).1 with
        | none => ([], d1, idx)
        | some (k, v) =>
          (⟨k, v, makeLoc (idx + 1) 1 (idx + 1) (line.length + 1)⟩
             :: (metadataScan rest (idx + 1)).1,
           d1 ++ (metadataScan rest (idx + 1)).2.1,
           (metadataScan rest (idx + 1)).2.2)

/-- Python `len(la_line) - len(la_line.lstrip(" "))`: leading spaces only. -/
def countLeadingSpaces (l : Chars) : Nat := (l.takeWhile (fun c => c == ' ')).length

/-- The bullet-continuation lookahead loop; first argument `lines[lookahead:]`,
second the absolute `lookahead`.  Returns the collected (stripped)
continuation lines and the final `lookahead`. -/
def contScan (baseIndent : Nat) : List Chars → Nat → List Chars × Nat
  | [], la => ([], la)
  | l :: rest, la =>
    if isBlankLine l then ([], la)
    else if (bulletMatch l).isSome then ([], la)
    else if (fenceMatch l).isSome || tableMatch l
        || (sectionMatch (stripInlineCommentForDetection l)).isSome then ([], la)
    else if baseIndent ≤ countLeadingSpaces l then
      (stripWS l :: (contScan baseIndent rest (la + 1)).1,
       (contScan baseIndent rest (la + 1)).2)
    else ([], la)

/-- The bullet-item loop of the bullet arm.  Each iteration consumes at least
one line (`lookahead ≥ idx + 1`), so `lines.length + 1` fuel suffices. -/
def bulletScan (lines : List Chars) : Nat → Nat → List BulletItem → List BulletItem × Nat
  | 0, idx, acc => (acc, idx)
  | fuel + 1, idx, acc =>
    if idx < lines.length then
      match bulletMatch (lines.getD idx []) with
      | none => (acc, idx)
      | some (indent, marker, text) =>
        let baseIndent := indent + 2
        let contLines := (contScan baseIndent (lines.drop (idx + 1)) (idx + 1)).1
        let lookahead := (contScan baseIndent (lines.drop (idx + 1)) (idx + 1)).2
        let fullText := joinSpace (text :: contLines)
        let inl := parseInline fullText true (idx + 1) (indent + 3)
        let lastLineIdx := lookahead - 1
        let item : BulletItem :=
          ⟨marker, inl, (if contLines.isEmpty then none else some contLines),
           makeLoc (idx + 1) (indent + 1) (lastLineIdx + 1)
             ((rstripWS (lines.getD lastLineIdx [])).length + 1)⟩
        bulletScan lines fuel lookahead (acc ++ [item])
    else (acc, idx)

/-- The paragraph-collection loop; first argument `lines[idx:]`, second the
absolute `idx`.  Returns the collected `(index, line)` pairs and the final
`idx`. -/
def paraScan : List Chars → Nat → List (Nat × Chars) × Nat
  | [], idx => ([], idx)
  | l :: rest, idx =>
    if isBlankLine l then ([], idx)
    else if (fenceMatch l).isSome || tableMatch l
        || (sectionMatch (stripInlineCommentForDetection l)).isSome
        || commentMatch l || (bulletMatch l).isSome then ([], idx)
    else
      ((idx, l) :: (paraScan rest (idx + 1)).1, (paraScan rest (idx + 1)).2)

/-- The section-heading arm.  `none` in the first component means the arm did
not fire and control falls through (the diagnostics of a stripped illegal
comment are kept even then, exactly as in the source, where the shared list
has already been extended). -/
def sectionArm (line : Chars) (idx : Nat) (body : List Block) (stack : List OpenSec) :
    Option (List Block × List OpenSec) × List Diagnostic :=
  match sectionMatch (stripInlineCommentForDetection line) with
  | none => (none, [])
  | some _ =>
    let d1 := (stripIllegalInlineComment line (idx + 1)).2
    match sectionMatch (stripIllegalInlineComment line (idx + 1)).1 with
    | none => (none, d1)
    | some (num, title, descRaw) =>
      let desc : Option Chars :=
        match descRaw with
        | some d => if d.isEmpty then none else some d
        | none => none
      let sec : Block :=
        .Section num title desc num.length []
          (makeLoc (idx + 1) 1 (idx + 1) ((rstripWS line).length + 1))
      (some ((placeSection body stack num sec (idx + 1)).1,
             (placeSection body stack num sec (idx + 1)).2.1),
       d1 ++ (placeSection body stack num sec (idx + 1)).2.2)

/-- The main body while-loop of `parse_document`.  Every iteration advances
`idx` by at least one, so `lines.length + 1` fuel suffices. -/
def bodyLoop (lines : List Chars) :
    Nat → Nat → List Block → List OpenSec → List Diagnostic → List Block × List Diagnostic
  | 0, _, body, _, diags => (body, diags)
  | fuel + 1, idx, body, stack, diags =>
    if idx < lines.length then
      let line := lines.getD idx []
      if isBlankLine line then
        bodyLoop lines fuel (idx + 1)
          (addBlock body stack (.BlankLine (makeLoc (idx + 1) 1 (idx + 1) (line.length + 1))))
          stack diags
      else
        match fenceMatch line with
        | some (k, infoRaw) =>
          let info : Option Chars :=
            if (stripWS infoRaw).isEmpty then none else some (stripWS infoRaw)
          bodyLoop lines fuel (fenceBlockStep lines idx k info).2.2
            (addBlock body stack (fenceBlockStep lines idx k info).1) stack
            (diags ++ (fenceBlockStep lines idx k info).2.1)
        | none =>
          if tableMatch line then
            let rows := (lines.drop idx).takeWhile tableMatch
            bodyLoop lines fuel (idx + rows.length)
              (addBlock body stack (parseTable rows (idx + 1)).1) stack
              (diags ++ (parseTable rows (idx + 1)).2)
          else
            match (sectionArm line idx body stack).1 with
            | some bs =>
              bodyLoop lines fuel (idx + 1) bs.1 bs.2
                (diags ++ (sectionArm line idx body stack).2)
            | none =>
              let dsSec := (sectionArm line idx body stack).2
              if commentMatch line then
                bodyLoop lines fuel (idx + 1)
                  (addBlock body stack
                    (.WholeLineComment (lstripWS ((lstripWS line).drop 1))
                      (makeLoc (idx + 1) 1 (idx + 1) (line.length + 1))))
                  stack (diags ++ dsSec)
              else
                match bulletMatch line with
                | some _ =>
                  let items := (bulletScan lines (lines.length + 1) idx []).1
                  let listEnd : Nat × Nat :=
                    match items.getLast? with
                    | some it => (it.loc.stop.line, it.loc.stop.column)
                    | none => (idx + 1, 1)
                  let node : Block := .BulletList items (makeLoc (idx + 1) 1 listEnd.1 listEnd.2)
                  bodyLoop lines fuel (bulletScan lines (lines.length + 1) idx []).2
                    (addBlock body stack node) stack (diags ++ dsSec)
                | none =>
                  match paraScan (lines.drop idx) idx with
                  | ([], _) => bodyLoop lines fuel (idx + 1) body stack (diags ++ dsSec)
                  | (p0 :: ps, idx2) =>
                    let paras := p0 :: ps
                    let text := joinSpace (paras.map (fun pl => stripWS pl.2))
                    let inl := parseInline text true (p0.1 + 1) 1
                    let lastIdx := (paras.getLast?.getD p0).1
                    let node : Block :=
                      .Paragraph inl
                        (makeLoc (p0.1 + 1) 1 (lastIdx + 1)
                          ((rstripWS (lines.getD lastIdx [])).length + 1))
                    bodyLoop lines fuel idx2 (addBlock body stack node) stack (diags ++ dsSec)
    else (body, diags)

/-- The `first_non_blank` scan of `parse_document`: index of the first line
whose `strip()` is truthy. -/
def findFirstNonBlank : List Chars → Option Nat
  | [] => none
  | l :: rest =>
    if !isBlankLine l then some 0
    else (findFirstNonBlank rest).map (· + 1)

/-- `parse_document(lines)`. -/
def parseDocument (lines : List Chars) : Document :=
  match findFirstNonBlank lines with
  | none => ⟨none, [], [], [⟨.error, "Empty document".data, .EMPTY, ⟨1, 1⟩⟩]⟩
  | some idx =>
    let headerLine := (stripIllegalInlineComment (lines.getD idx []) (idx + 1)).1
    let d1 := (stripIllegalInlineComment (lines.getD idx []) (idx + 1)).2
    let d2 := (parseHeader headerLine (idx + 1)).2
    let idx2 := (metadataScan (lines.drop (idx + 1)) (idx + 1)).2.2
    ⟨(parseHeader headerLine (idx + 1)).1,
     (metadataScan (lines.drop (idx + 1)) (idx + 1)).1,
     (bodyLoop lines (lines.length + 1) idx2 [] [] []).1,
     d1 ++ d2 ++ (metadataScan (lines.drop (idx + 1)) (idx + 1)).2.1 ++
       (bodyLoop lines (lines.length + 1) idx2 [] [] []).2⟩

/-! ## Location collection over the AST (for the location invariant) -/

/-- The location invariant: `start <= end` lexicographically on
`(line, column)` and `end.line` within the `n`-line input. -/
def locOk (n : Nat) (loc : Loc) : Prop :=
  (loc.start.line < loc.stop.line ∨
    (loc.start.line = loc.stop.line ∧ loc.start.column ≤ loc.stop.column)) ∧
  loc.stop.line ≤ n

instance (n : Nat) (loc : Loc) : Decidable (locOk n loc) := by
  unfold locOk
  infer_instance

def inlineLoc : InlineNode → Loc
  | .Text _ loc => loc
  | .InlineCode _ loc => loc
  | .InlineLabel _ _ loc => loc
  | .InlineComment _ loc => loc

def rowLocs (r : TableRow) : List Loc :=
  match r.loc with
  | some loc => [loc]
  | none => []

def optRowLocs : Option TableRow → List Loc
  | some r => rowLocs r
  | none => []

def rowsLocs : List TableRow → List Loc
  | [] => []
  | r :: rs => rowLocs r ++ rowsLocs rs

def itemLocs (it : BulletItem) : List Loc :=
  it.loc :: it.inline.map inlineLoc

def itemsLocs : List BulletItem → List Loc
  | [] => []
  | it :: its => itemLocs it ++ itemsLocs its

mutual
def blockLocs : Block → List Loc
  | .BlankLine loc => [loc]
  | .WholeLineComment _ loc => [loc]
  | .FencedCodeBlock _ _ _ loc => [loc]
  | .Table hd al rows loc => loc :: (rowLocs hd ++ optRowLocs al ++ rowsLocs rows)
  | .Section _ _ _ _ body loc => loc :: blocksLocs body
  | .BulletList items loc => loc :: itemsLocs items
  | .Paragraph inl loc => loc :: inl.map inlineLoc
def blocksLocs : List Block → List Loc
  | [] => []
  | b :: bs => blockLocs b ++ blocksLocs bs
end

/-- Every location of every AST node of a document: header, metadata entries,
and all body blocks with their nested rows, items and inline nodes. -/
def docLocs (d : Document) : List Loc :=
  (match d.header with
   | some h => [h.loc]
   | none => []) ++ d.metadata.map (fun e => e.loc) ++ blocksLocs d.body

/-! ## Claim C1: section recovery -/

/-- Claim C1: with headings `1 OVERVIEW` then `1.2.1 DEEP` (no `1.2` heading
before it), `parse_document` attaches section `[1,2,1]` directly to the
document root's body (not inside section `[1]`), emits exactly one
`SECTION_PARENT_MISSING` warning naming the missing parent `1.2`, and still
pushes the new section, so that the subsequent heading `1.2.1.1 DEEPER`
becomes a child of the `[1,2,1]` section's body.  (A valid header line opens
the document; the heading lines then form the body.) -/
theorem c1_section_recovery :
    parseDocument (["DOC: T", "1 OVERVIEW", "1.2.1 DEEP", "1.2.1.1 DEEPER"].map String.data) =
      { header := some ⟨"DOC".data, "T".data, makeLoc 1 1 1 7⟩
        metadata := []
        body := [
          .Section [1] "OVERVIEW".data none 1 [] (makeLoc 2 1 2 11),
          .Section [1, 2, 1] "DEEP".data none 3
            [.Section [1, 2, 1, 1] "DEEPER".data none 4 [] (makeLoc 4 1 4 15)]
            (makeLoc 3 1 3 11)]
        diagnostics := [⟨.warning,
          "Missing parent section 1.2; attached to document root.".data,
          .SECTION_PARENT_MISSING, ⟨3, 1⟩⟩] } := rfl

/-! ## Claim C2: inline labels -/

/-- Claim C2 counterexample: lexing
`intent: refactor module auth: tighten validation` does produce exactly two
`InlineLabel`s with no leading `Text` node, but their `text` fields are the
verbatim inter-label slices `" refactor module "` and `" tighten validation"`
(`trailing = text[match.end():end]` is never trimmed), not the trimmed
`"refactor module"` / `"tighten validation"` stated by the claim. -/
theorem c2_counterexample :
    parseInline "intent: refactor module auth: tighten validation".data true 1 1 =
      [.InlineLabel "intent".data (some " refactor module ".data) (makeLoc 1 1 1 25),
       .InlineLabel "auth".data (some " tighten validation".data) (makeLoc 1 25 1 49)] ∧
    " refactor module ".data ≠ "refactor module".data := ⟨rfl, by decide⟩

/-- Claim C2 (amended): lexing the paragraph line
`intent: refactor module auth: tighten validation` with inline comments
allowed produces exactly two `InlineLabel` nodes — identifier `intent` with
text field `" refactor module "` and identifier `auth` with text field
`" tighten validation"` (the slice between a label's colon and the next label
match is kept verbatim, untrimmed) — and no `Text` node before the first
label. -/
theorem c2_labels_untrimmed :
    parseInline "intent: refactor module auth: tighten validation".data true 1 1 =
      [.InlineLabel "intent".data (some " refactor module ".data) (makeLoc 1 1 1 25),
       .InlineLabel "auth".data (some " tighten validation".data) (makeLoc 1 25 1 49)] := rfl

/-! ## Claim C5: code-span precedence over inline comments -/

/-- Claim C5: lexing `` `i#notacomment` `` with inline comments allowed yields
exactly one node, an `InlineCode` with code `i#notacomment`, and no
`InlineComment`: the `i#` marker inside a backtick span is not a comment
split point. -/
theorem c5_code_span_precedence :
    parseInline "`i#notacomment`".data true 1 1 =
      [.InlineCode "i#notacomment".data (makeLoc 1 2 1 15)] := rfl

/-! ## Claim C3: unterminated fences -/

/-- Claim C3 counterexample: for the document `T: x` / ` ```python ` / `a`,
the fence opens at line 2 and the single captured content line `a` is line 3
(the last line of input).  The claim says the `FENCE_UNTERMINATED` error is
anchored at the line *following* the last captured content line (line 4); the
code anchors it at `fence_start_line + len(content)` = line 3, the last
captured content line itself. -/
theorem c3_counterexample :
    (parseDocument (["T: x", "```python", "a"].map String.data)).diagnostics =
      [⟨.error, "Unterminated fenced code block".data, .FENCE_UNTERMINATED, ⟨3, 1⟩⟩] ∧
    (parseDocument (["T: x", "```python", "a"].map String.data)).body =
      [.FencedCodeBlock (some "python".data) 0 ["a".data] (makeLoc 2 1 3 2)] ∧
    (3 : Nat) ≠ 3 + 1 := ⟨rfl, rfl, by decide⟩

/-! ## Helper lemmas about the string primitives -/

theorem isPrefixOf_iff_exists (a l : Chars) : a.isPrefixOf l = true ↔ ∃ t, l = a ++ t := by
  induction a generalizing l with
  | nil => simp [List.isPrefixOf]
  | cons c a ih =>
    cases l with
    | nil => simp [List.isPrefixOf]
    | cons d l =>
      simp only [List.isPrefixOf, Bool.and_eq_true, beq_iff_eq, ih]
      constructor
      · rintro ⟨rfl, t, rfl⟩; exact ⟨t, rfl⟩
      · rintro ⟨t, ht⟩
        injection ht with h1 h2
        exact ⟨h1.symm, t, h2⟩

theorem dropWhile_append_of_all {p : Char → Bool} (w y : Chars) (h : w.all p = true) :
    List.dropWhile p (w ++ y) = List.dropWhile p y := by
  induction w with
  | nil => rfl
  | cons c w ih =>
    simp only [List.all_cons, Bool.and_eq_true] at h
    simp [List.dropWhile, h.1, ih h.2]

theorem dropWhile_append_cons {p : Char → Bool} (a : Chars) (c : Char) (b : Chars)
    (h : p c = false) :
    List.dropWhile p (a ++ c :: b) = List.dropWhile p a ++ c :: b := by
  induction a with
  | nil => simp [List.dropWhile, h]
  | cons x a ih =>
    by_cases hx : p x
    · simp [List.dropWhile, hx, ih]
    · simp [List.dropWhile, hx]

theorem spacesN_all (k : Nat) : (spacesN k).all isPySpace = true := by
  induction k with
  | zero => rfl
  | succ k ih => simp [spacesN, List.replicate_succ, List.all_cons, isPySpace]

theorem isPySpace_backtick : isPySpace backtick = false := rfl

theorem lstripWS_spaces_marker (k : Nat) (w : Chars) :
    lstripWS (spacesN k ++ fenceMarker ++ w) = fenceMarker ++ w := by
  rw [List.append_assoc]
  unfold lstripWS
  rw [dropWhile_append_of_all _ _ (spacesN_all k)]
  simp [fenceMarker, List.dropWhile, isPySpace_backtick]

theorem rstripWS_append_of_all (a w : Chars) (h : w.all isPySpace = true) :
    rstripWS (a ++ w) = rstripWS a := by
  unfold rstripWS
  rw [List.reverse_append, dropWhile_append_of_all]
  simpa using h

theorem rstripWS_append_last_not_ws (s : Chars) (c : Char) (h : isPySpace c = false) :
    rstripWS (s ++ [c]) = s ++ [c] := by
  unfold rstripWS
  simp [List.reverse_append, List.dropWhile, h]

theorem rstripWS_marker_iff (w : Chars) :
    rstripWS (fenceMarker ++ w) = fenceMarker ↔ w.all isPySpace = true := by
  constructor
  · intro h
    induction w using List.reverseRecOn with
    | nil => rfl
    | append_singleton u c ih =>
      by_cases hc : isPySpace c
      · rw [← List.append_assoc, rstripWS_append_of_all (fenceMarker ++ u) [c]
          (by simp [hc])] at h
        simpa [List.all_append, hc] using ih h
      · rw [← List.append_assoc,
          rstripWS_append_last_not_ws (fenceMarker ++ u) c (by simpa using hc)] at h
        have := congrArg List.length h
        simp [fenceMarker] at this
  · intro h
    rw [rstripWS_append_of_all _ _ h]
    rfl

/-! ## Claim C4: fence-closing discipline -/

theorem closesFence_iff (k : Nat) (l : Chars) :
    closesFence k l = true ↔
      ∃ w, l = spacesN k ++ fenceMarker ++ w ∧ w.all isPySpace = true := by
  unfold closesFence
  rw [Bool.and_eq_true, isPrefixOf_iff_exists, beq_iff_eq]
  constructor
  · rintro ⟨⟨w, rfl⟩, hstrip⟩
    refine ⟨w, rfl, ?_⟩
    unfold stripWS at hstrip
    rw [lstripWS_spaces_marker] at hstrip
    exact (rstripWS_marker_iff w).mp hstrip
  · rintro ⟨w, rfl, hw⟩
    refine ⟨⟨w, rfl⟩, ?_⟩
    unfold stripWS
    rw [lstripWS_spaces_marker]
    exact (rstripWS_marker_iff w).mpr hw

theorem fenceScan_content (k : Nat) (rest : List Chars) :
    (fenceScan k rest).1 = rest.takeWhile (fun x => !closesFence k x) := by
  induction rest with
  | nil => rfl
  | cons l rest ih =>
    by_cases h : closesFence k l
    · simp [fenceScan, h, List.takeWhile_cons]
    · simp [fenceScan, h, List.takeWhile_cons, ih]

theorem fenceScan_closed (k : Nat) (rest : List Chars) :
    (fenceScan k rest).2.1 = rest.any (fun x => closesFence k x) := by
  induction rest with
  | nil => rfl
  | cons l rest ih =>
    by_cases h : closesFence k l <;> simp [fenceScan, h, ih]

theorem fenceScan_not_closed (k : Nat) (rest : List Chars)
    (h : (fenceScan k rest).2.1 = false) : (fenceScan k rest).1 = rest := by
  induction rest with
  | nil => rfl
  | cons l rest ih =>
    by_cases hc : closesFence k l
    · simp [fenceScan, hc] at h
    · simp [fenceScan, hc] at h ⊢
      exact ih h

/-- Claim C4: a line closes an open fence of recorded indent `k` iff it is
exactly `k` spaces, the bare marker, and trailing whitespace only (that is:
it starts with exactly `k` spaces followed by the marker and its fully
trimmed content is exactly the bare marker); the content loop captures every
line verbatim up to the first such line; and a candidate closing line whose
trailing info string has any non-whitespace character never closes. -/
theorem c4_fence_closing (k : Nat) (l : Chars) (rest : List Chars) :
    (closesFence k l = true ↔
      ∃ w, l = spacesN k ++ fenceMarker ++ w ∧ w.all isPySpace = true) ∧
    (fenceScan k rest).1 = rest.takeWhile (fun x => !closesFence k x) ∧
    (fenceScan k rest).2.1 = rest.any (fun x => closesFence k x) ∧
    (∀ t c, c ∈ t → isPySpace c = false →
      closesFence k (spacesN k ++ fenceMarker ++ t) = false) := by
  refine ⟨closesFence_iff k l, fenceScan_content k rest, fenceScan_closed k rest, ?_⟩
  intro t c hmem hws
  by_contra hcl
  rw [Bool.not_eq_false] at hcl
  obtain ⟨w, heq, hall⟩ := (closesFence_iff k _).mp hcl
  have hw : t = w := List.append_cancel_left heq
  subst hw
  rw [List.all_eq_true] at hall
  rw [hall c hmem] at hws
  exact Bool.true_eq_false.mp hws

/-- Claim C4 witness: a closing candidate at the right indent whose trailing
info string is non-blank does not close the fence. -/
theorem c4_fence_closing_witness :
    closesFence 2 (spacesN 2 ++ fenceMarker ++ " info".data) = false :=
  (c4_fence_closing 2 [] []).2.2.2 " info".data 'i' (by decide) (by decide)

/-- Claim C3 (amended): whenever the fence-content loop reaches end of input
without finding a closing line, the captured content is exactly all the
remaining lines, the fence arm appends one `FENCE_UNTERMINATED` error
anchored at line `fence_start_line + len(content)` — the *last* captured
content line (the final line of input; the opening fence line itself when no
content was captured), not the line following it — and it still appends a
`FencedCodeBlock` node whose content is exactly those captured lines. -/
theorem c3_fence_unterminated (lines : List Chars) (idx k : Nat) (info : Option Chars)
    (h : (fenceScan k (lines.drop (idx + 1))).2.1 = false) :
    (fenceScan k (lines.drop (idx + 1))).1 = lines.drop (idx + 1) ∧
    (fenceBlockStep lines idx k info).2.1 =
      [⟨.error, "Unterminated fenced code block".data, .FENCE_UNTERMINATED,
        ⟨(idx + 1) + (lines.drop (idx + 1)).length, 1⟩⟩] ∧
    (idx + 1 ≤ lines.length → (idx + 1) + (lines.drop (idx + 1)).length = lines.length) ∧
    (∃ loc, (fenceBlockStep lines idx k info).1 =
      .FencedCodeBlock info k (lines.drop (idx + 1)) loc) := by
  have hc := fenceScan_not_closed k _ h
  refine ⟨hc, ?_, ?_, ?_⟩
  · simp only [fenceBlockStep, h, hc, if_false, Bool.false_eq_true]
  · intro hle
    simp only [List.length_drop]
    omega
  · exact ⟨_, by rw [← hc]; exact rfl⟩

/-- Claim C3 witness: the fence `` ```python `` at index 1 of a two-line tail
is never closed; the content is the whole remaining input. -/
theorem c3_fence_unterminated_witness :
    (fenceScan 0 ((["```python", "a"].map String.data).drop (0 + 1))).1 =
      (["```python", "a"].map String.data).drop (0 + 1) :=
  (c3_fence_unterminated (["```python", "a"].map String.data) 0 0 (some "python".data)
    (by decide)).1

/-! ## Claim C6: tables -/

theorem tableRowsLoop_diag_mem (startLine : Nat) (rows : List Chars) (i k : Nat)
    (row : Chars) (col : Nat)
    (hrow : rows.get? k = some row) (hcol : findSub fenceMarker row = some col) :
    (⟨.error, "Fenced code block delimiter inside table is not allowed.".data,
      .FENCE_IN_TABLE, ⟨startLine + i + k, col + 1⟩⟩ : Diagnostic)
      ∈ (parseTableRowsLoop startLine rows i).2 := by
  induction rows generalizing i k with
  | nil => simp at hrow
  | cons r rest ih =>
    cases k with
    | zero =>
      obtain rfl : r = row := by simpa using hrow
      simp [parseTableRowsLoop, hcol]
    | succ k2 =>
      have hrow' : rest.get? k2 = some row := by simpa using hrow
      have hmem := ih (i + 1) k2 hrow'
      have harith : startLine + (i + 1) + k2 = startLine + i + (k2 + 1) := by omega
      rw [harith] at hmem
      simp only [parseTableRowsLoop, List.mem_append]
      exact Or.inr hmem

/-- Claim C6: the row `| a | b |` yields cells `["a","b"]` (strip the row,
split on the pipe, drop the first and last chunk, trim each cell); for every
collected table, any row that contains the fence-marker substring contributes
a `FENCE_IN_TABLE` error at that row's line and the marker's column while
`parse_table` still returns a completed `Table` node — shown both in general
and on a concrete document parsed end to end. -/
theorem c6_table_rows (rows : List Chars) (startLine k : Nat) (row : Chars) (col : Nat)
    (hrow : rows.get? k = some row) (hcol : findSub fenceMarker row = some col) :
    pyRowCells "| a | b |".data = ["a".data, "b".data] ∧
    (⟨.error, "Fenced code block delimiter inside table is not allowed.".data,
      .FENCE_IN_TABLE, ⟨startLine + k, col + 1⟩⟩ : Diagnostic) ∈ (parseTable rows startLine).2 ∧
    (∃ hd al dr loc, (parseTable rows startLine).1 = .Table hd al dr loc) ∧
    parseDocument (["T: x", "| a | b |", "| ``` |"].map String.data) =
      { header := some ⟨"T".data, "x".data, makeLoc 1 1 1 5⟩
        metadata := []
        body := [.Table ⟨["a".data, "b".data], some (makeLoc 2 1 2 10)⟩
          (some ⟨["```".data], some (makeLoc 3 1 3 8)⟩) [] (makeLoc 2 1 3 8)]
        diagnostics := [⟨.error,
          "Fenced code block delimiter inside table is not allowed.".data,
          .FENCE_IN_TABLE, ⟨3, 3⟩⟩] } := by
  refine ⟨rfl, ?_, ⟨_, _, _, _, rfl⟩, rfl⟩
  have hmem := tableRowsLoop_diag_mem startLine rows 0 k row col hrow hcol
  simpa [parseTable] using hmem

/-- Claim C6 witness: instantiated at the single-row table `| ``` |`. -/
theorem c6_table_rows_witness :
    pyRowCells "| a | b |".data = ["a".data, "b".data] :=
  (c6_table_rows ["| ``` |".data] 1 0 "| ``` |".data 2 (by decide) (by decide)).1

/-! ## Claim C7: empty input -/

/-- Claim C7: on an input whose lines are all blank (including the zero-line
input), `parse_document` returns header `None`, no metadata, no body, and
exactly one `EMPTY` error at line 1, column 1, with no further processing. -/
theorem c7_empty_and_blank (lines : List Chars) (h : ∀ l ∈ lines, stripWS l = []) :
    parseDocument lines =
      ⟨none, [], [], [⟨.error, "Empty document".data, .EMPTY, ⟨1, 1⟩⟩]⟩ := by
  have hfind : findFirstNonBlank lines = none := by
    induction lines with
    | nil => rfl
    | cons l rest ih =>
      have hl : isBlankLine l = true := by
        simp [isBlankLine, h l (List.mem_cons_self l rest)]
      simp [findFirstNonBlank, hl, ih (fun x hx => h x (List.mem_cons_of_mem l hx))]
  simp [parseDocument, hfind]

/-- Claim C7 witness: a two-line all-blank input. -/
theorem c7_empty_and_blank_witness :
    parseDocument ["".data, "  ".data] =
      ⟨none, [], [], [⟨.error, "Empty document".data, .EMPTY, ⟨1, 1⟩⟩]⟩ :=
  c7_empty_and_blank ["".data, "  ".data] (by decide)

/-! ## Claim C10: text after the final pipe of a row is dropped -/

theorem pySplit_ne_nil (sep : Char) (s : Chars) : pySplit sep s ≠ [] := by
  cases s with
  | nil => simp [pySplit]
  | cons c rest =>
    simp only [pySplit]
    split
    · simp
    · split <;> simp

theorem pySplit_append_sep (sep : Char) (a b : Chars) :
    pySplit sep (a ++ sep :: b) = pySplit sep a ++ pySplit sep b := by
  induction a with
  | nil => simp [pySplit]
  | cons c a ih =>
    by_cases hc : (c == sep) = true
    · simp [pySplit, hc, ih]
    · simp only [List.cons_append, pySplit, hc, Bool.false_eq_true, if_false, List.append_eq]
      cases hps : pySplit sep a with
      | nil => exact absurd hps (pySplit_ne_nil sep a)
      | cons s ss => rw [ih, hps]; simp

theorem pySplit_no_sep (sep : Char) (t : Chars) (h : sep ∉ t) : pySplit sep t = [t] := by
  induction t with
  | nil => rfl
  | cons c rest ih =>
    have hc : (c == sep) = false := by
      simp only [List.mem_cons, not_or] at h
      exact beq_eq_false_iff_ne.mpr (fun hcc => h.1 hcc.symm)
    have ih' := ih (fun hm => h (List.mem_cons_of_mem c hm))
    simp [pySplit, hc, ih']

theorem isPySpace_pipe : isPySpace '|' = false := rfl

theorem lstripWS_append_pipe (r t : Chars) :
    lstripWS (r ++ '|' :: t) = lstripWS r ++ '|' :: t := by
  unfold lstripWS
  exact dropWhile_append_cons r '|' t isPySpace_pipe

theorem rstripWS_append_pipe (u t : Chars) :
    rstripWS (u ++ '|' :: t) = u ++ '|' :: rstripWS t := by
  unfold rstripWS
  rw [List.reverse_append, List.reverse_cons, List.append_assoc, List.singleton_append,
    dropWhile_append_cons _ '|' _ isPySpace_pipe, List.reverse_append, List.reverse_cons,
    List.reverse_reverse, List.append_assoc, List.singleton_append]

theorem stripWS_append_pipe (r t : Chars) :
    stripWS (r ++ '|' :: t) = lstripWS r ++ '|' :: rstripWS t := by
  unfold stripWS
  rw [lstripWS_append_pipe, rstripWS_append_pipe]

theorem not_mem_rstripWS (c : Char) (t : Chars) (h : c ∉ t) : c ∉ rstripWS t := by
  intro hc
  apply h
  unfold rstripWS at hc
  exact List.mem_reverse.mp
    (List.Sublist.mem (List.mem_reverse.mp hc) (List.dropWhile_sublist isPySpace))

theorem pyRowCells_drop_after_pipe (r t : Chars) (h : '|' ∉ t) :
    pyRowCells (r ++ '|' :: t) = pyRowCells (r ++ ['|']) := by
  unfold pyRowCells
  rw [show r ++ ['|'] = r ++ '|' :: ([] : Chars) from rfl]
  rw [stripWS_append_pipe, stripWS_append_pipe]
  rw [show rstripWS ([] : Chars) = [] from rfl]
  rw [pySplit_append_sep, pySplit_append_sep]
  rw [pySplit_no_sep '|' (rstripWS t) (not_mem_rstripWS _ _ h)]
  rw [show pySplit '|' ([] : Chars) = [[]] from rfl]
  cases hsa : pySplit '|' (lstripWS r) with
  | nil => exact absurd hsa (pySplit_ne_nil _ _)
  | cons s ss => simp [List.dropLast_concat]

/-- Claim C10: a collected row whose stripped text does not end with a pipe
silently drops the text after the final pipe from its cells: appending
pipe-free text after the last pipe never changes the derived cells, the row
`| a | b` yields cells `["a"]`, and `parse_table` emits no diagnostic for
it. -/
theorem c10_trailing_after_last_pipe (r t : Chars) (h : '|' ∉ t) :
    pyRowCells (r ++ '|' :: t) = pyRowCells (r ++ ['|']) ∧
    pyRowCells "| a | b".data = ["a".data] ∧
    (parseTable ["| a | b".data] 1).2 = [] :=
  ⟨pyRowCells_drop_after_pipe r t h, rfl, rfl⟩

/-- Claim C10 witness: the row `| a | b` seen as `| a ` ++ `|` ++ ` b`. -/
theorem c10_trailing_after_last_pipe_witness :
    pyRowCells ("| a ".data ++ '|' :: " b".data) = pyRowCells ("| a ".data ++ ['|']) :=
  (c10_trailing_after_last_pipe "| a ".data " b".data (by decide)).1

/-! ## Claim C9: unmatched trailing backtick -/

theorem lastIdxOf_eq_none (a : Char) (s : Chars) (h : lastIdxOf a s = none) : a ∉ s := by
  induction s with
  | nil => simp
  | cons c rest ih =>
    simp only [lastIdxOf] at h
    cases hr : lastIdxOf a rest with
    | some j => rw [hr] at h; simp at h
    | none =>
      rw [hr] at h
      have hca : (c == a) = false := by
        by_contra hh
        rw [Bool.not_eq_false] at hh
        simp [hh] at h
      simp only [List.mem_cons, not_or]
      exact ⟨fun he => by simp [he] at hca, ih hr⟩

theorem lastIdxOf_spec (a : Char) (s : Chars) (j : Nat) (h : lastIdxOf a s = some j) :
    j < s.length ∧ s.get? j = some a ∧ ∀ x ∈ s.drop (j + 1), x ≠ a := by
  induction s generalizing j with
  | nil => simp [lastIdxOf] at h
  | cons c rest ih =>
    simp only [lastIdxOf] at h
    cases hr : lastIdxOf a rest with
    | some j2 =>
      rw [hr] at h
      simp only [Option.some.injEq] at h
      subst h
      obtain ⟨h1, h2, h3⟩ := ih j2 hr
      refine ⟨by simpa using Nat.succ_lt_succ h1, by simpa using h2, ?_⟩
      intro x hx
      exact h3 x (by simpa using hx)
    | none =>
      rw [hr] at h
      have hca : (c == a) = true := by
        by_contra hh
        rw [Bool.not_eq_true] at hh
        rw [hh] at h
        simp at h
      rw [hca] at h
      simp only [if_true, Option.some.injEq] at h
      subst h
      refine ⟨by simp, by simpa using beq_iff_eq.mp hca, ?_⟩
      intro x hx
      have hnot := lastIdxOf_eq_none a rest hr
      simp only [List.drop_succ_cons, List.drop_zero] at hx
      exact fun he => hnot (he ▸ hx)

theorem lastIdxOf_isSome (a : Char) (s : Chars) (h : a ∈ s) :
    ∃ j, lastIdxOf a s = some j := by
  cases hl : lastIdxOf a s with
  | some j => exact ⟨j, rfl⟩
  | none => exact absurd h (lastIdxOf_eq_none a s hl)

theorem pySlice_take (s : Chars) (j a b : Nat) (hb : b ≤ j) :
    pySlice (s.take j) a b = pySlice s a b := by
  unfold pySlice
  rw [List.drop_take, List.take_take, Nat.min_eq_left (Nat.sub_le_sub_right hb a)]

theorem piwcLoop_no_backtick (text : Chars) (l c : Nat) :
    ∀ (rest : List Char) (i cs ps : Nat) (inCode : Bool) (acc : List InlineNode),
      backtick ∉ rest →
      piwcLoop text l c rest i cs ps inCode acc =
        piwcLoop text l c [] 0 cs ps inCode acc := by
  intro rest
  induction rest with
  | nil => intro i cs ps inCode acc _; rfl
  | cons c0 rest ih =>
    intro i cs ps inCode acc h
    have hc0 : (c0 == backtick) = false := by
      simp only [List.mem_cons, not_or] at h
      exact beq_eq_false_iff_ne.mpr (fun hh => h.1 hh.symm)
    simp only [piwcLoop, hc0, Bool.false_eq_true, if_false]
    exact ih (i + 1) cs ps inCode acc
      (fun hm => h (List.mem_cons_of_mem c0 hm))

theorem piwc_cons_close (t2 : Chars) (l c : Nat) (rest : List Char)
    (i cs ps : Nat) (acc : List InlineNode) :
    piwcLoop t2 l c (backtick :: rest) i cs ps true acc =
      piwcLoop t2 l c rest (i + 1) cs (i + 1) false
        (acc ++ [.InlineCode (pySlice t2 cs i) (makeLoc l (c + cs) l (c + i))]) := rfl

theorem piwc_cons_open (t2 : Chars) (l c : Nat) (rest : List Char)
    (i cs ps : Nat) (acc : List InlineNode) :
    piwcLoop t2 l c (backtick :: rest) i cs ps false acc =
      piwcLoop t2 l c rest (i + 1) (i + 1) ps true
        (if ps < i then acc ++ parseLabelsInto (pySlice t2 ps i) l (c + ps) else acc) := rfl

theorem piwc_cons_skip (t2 : Chars) (l c : Nat) (c0 : Char) (rest : List Char)
    (i cs ps : Nat) (inCode : Bool) (acc : List InlineNode)
    (hc0 : (c0 == backtick) = false) :
    piwcLoop t2 l c (c0 :: rest) i cs ps inCode acc =
      piwcLoop t2 l c rest (i + 1) cs ps inCode acc := by
  simp [piwcLoop, hc0]

theorem piwc_nil_true (t2 : Chars) (l c : Nat) (i cs ps : Nat) (acc : List InlineNode) :
    piwcLoop t2 l c [] i cs ps true acc =
      if cs - 1 < t2.length then
        acc ++ parseLabelsInto (pySlice t2 (cs - 1) t2.length) l (c + (cs - 1))
      else acc := rfl

theorem piwc_nil_false (t2 : Chars) (l c : Nat) (i cs ps : Nat) (acc : List InlineNode) :
    piwcLoop t2 l c [] i cs ps false acc =
      if ps < t2.length then
        acc ++ parseLabelsInto (pySlice t2 ps t2.length) l (c + ps)
      else acc := rfl

theorem piwcLoop_split (text : Chars) (l c j : Nat)
    (hj : lastIdxOf backtick text = some j) :
    ∀ (rest : List Char) (i cs ps : Nat) (inCode : Bool) (acc : List InlineNode),
      rest = text.drop i → i ≤ j →
      rest.count backtick % 2 = (if inCode then 0 else 1) →
      piwcLoop text l c rest i cs ps inCode acc =
        piwcLoop (text.take j) l c (rest.take (j - i)) i cs ps inCode acc ++
          parseLabelsInto (pySlice text j text.length) l (c + j) := by
  obtain ⟨hjlen, hjget, hjafter⟩ := lastIdxOf_spec backtick text j hj
  intro rest
  induction rest with
  | nil =>
    intro i cs ps inCode acc hrest hij hpar
    exfalso
    have := List.drop_eq_nil_iff.mp hrest.symm
    omega
  | cons c0 rest ih =>
    intro i cs ps inCode acc hrest hij hpar
    have hdrop1 : text.drop (i + 1) = rest := by
      have hdd : (text.drop i).drop 1 = text.drop (i + 1) := List.drop_drop 1 i text
      rw [← hdd, ← hrest]
      rfl
    rcases Nat.lt_or_ge i j with hlt | hge
    · have htake : (c0 :: rest).take (j - i) = c0 :: rest.take (j - (i + 1)) := by
        have hji : j - i = (j - (i + 1)) + 1 := by omega
        rw [hji]
        rfl
      by_cases hc0 : (c0 == backtick) = true
      · have hcount : (c0 :: rest).count backtick = rest.count backtick + 1 := by
          rw [List.count_cons, hc0]
          simp
        obtain rfl : c0 = backtick := beq_iff_eq.mp hc0
        cases inCode with
        | true =>
          have hpar2 : rest.count backtick % 2 = (if (false : Bool) then 0 else 1) := by
            rw [hcount] at hpar
            simp at hpar ⊢
            omega
          rw [htake, piwc_cons_close, piwc_cons_close,
            pySlice_take text j cs i (Nat.le_of_lt hlt)]
          exact ih (i + 1) cs (i + 1) false _ hdrop1.symm (by omega) hpar2
        | false =>
          have hpar2 : rest.count backtick % 2 = (if (true : Bool) then 0 else 1) := by
            rw [hcount] at hpar
            simp at hpar ⊢
            omega
          rw [htake, piwc_cons_open, piwc_cons_open,
            pySlice_take text j ps i (Nat.le_of_lt hlt)]
          exact ih (i + 1) (i + 1) ps true _ hdrop1.symm (by omega) hpar2
      · have hc0f : (c0 == backtick) = false := by
          rwa [Bool.not_eq_true] at hc0
        have hcount : (c0 :: rest).count backtick = rest.count backtick := by
          rw [List.count_cons, hc0f]
          simp
        rw [htake, piwc_cons_skip text l c c0 rest i cs ps inCode acc hc0f,
          piwc_cons_skip (text.take j) l c c0 (rest.take (j - (i + 1))) i cs ps inCode acc hc0f]
        exact ih (i + 1) cs ps inCode acc hdrop1.symm (by omega) (hcount ▸ hpar)
    · obtain rfl : i = j := Nat.le_antisymm hij hge
      have hc0 : c0 = backtick := by
        have hgd := List.get?_drop text i 0
        rw [← hrest, Nat.add_zero, hjget] at hgd
        simpa using hgd
      subst hc0
      have hnob : backtick ∉ rest := by
        intro hm
        exact hjafter backtick (hdrop1 ▸ hm) rfl
      have hrestcount : rest.count backtick = 0 := List.count_eq_zero.mpr hnob
      cases inCode with
      | true =>
        exfalso
        rw [List.count_cons] at hpar
        simp [hrestcount] at hpar
      | false =>
        rw [Nat.sub_self, List.take_zero, piwc_cons_open,
          piwcLoop_no_backtick text l c rest (i + 1) (i + 1) ps true _ hnob,
          piwc_nil_true, piwc_nil_false]
        have hlentake : (text.take i).length = i := by
          rw [List.length_take]
          omega
        rw [Nat.add_sub_cancel, if_pos hjlen, hlentake,
          pySlice_take text i ps i (Nat.le_refl i)]

/-- Label extraction emits only `Text` and `InlineLabel` nodes. -/
theorem parseLabelsLoop_no_code (text : Chars) (l b : Nat) :
    ∀ (fuel pos : Nat), ∀ nd ∈ parseLabelsLoop text l b fuel pos,
      ∀ s loc, nd ≠ .InlineCode s loc := by
  intro fuel
  induction fuel with
  | zero =>
    intro pos nd hnd
    simp [parseLabelsLoop] at hnd
  | succ fuel ih =>
    intro pos nd hnd
    simp only [parseLabelsLoop] at hnd
    cases hls : labelSearchFrom text pos with
    | none =>
      rw [hls] at hnd
      intro s loc hne
      subst hne
      by_cases hre : (pySlice text pos text.length).isEmpty = true
      · rw [if_pos hre] at hnd
        simp at hnd
      · rw [if_neg hre] at hnd
        simp at hnd
    | some m =>
      obtain ⟨s1, e1, ident⟩ := m
      rw [hls] at hnd
      intro s loc hne
      subst hne
      rw [List.mem_append] at hnd
      rcases hnd with hpre | hrest2
      · by_cases hps : pos < s1
        · rw [if_pos hps] at hpre
          simp at hpre
        · rw [if_neg hps] at hpre
          simp at hpre
      · rw [List.mem_cons] at hrest2
        rcases hrest2 with hlab | hrec
        · simp at hlab
        · exact absurd rfl (ih _ _ hrec s loc)

theorem parseLabelsInto_no_code (text : Chars) (l b : Nat) :
    ∀ nd ∈ parseLabelsInto text l b, ∀ s loc, nd ≠ .InlineCode s loc := by
  intro nd hnd
  exact parseLabelsLoop_no_code text l b (text.length + 1) 0 nd hnd

/-- Claim C9: for every text whose backtick count leaves a final opening
backtick unmatched (odd count), the inline lexer emits no `InlineCode` node
for the trailing run: the output decomposes as the run on the text up to the
last backtick followed by plain-text label reprocessing of the trailing
segment, which starts with the stray backtick character itself and contains
no `InlineCode` node. -/
theorem c9_unmatched_backtick (text : Chars) (l c : Nat)
    (h : text.count backtick % 2 = 1) :
    ∃ j, lastIdxOf backtick text = some j ∧
      (pySlice text j text.length).head? = some backtick ∧
      parseInlineWithoutComment text l c =
        parseInlineWithoutComment (text.take j) l c ++
          parseLabelsInto (pySlice text j text.length) l (c + j) ∧
      ∀ nd ∈ parseLabelsInto (pySlice text j text.length) l (c + j),
        ∀ s loc, nd ≠ .InlineCode s loc := by
  have hmem : backtick ∈ text := by
    by_contra hnm
    rw [List.count_eq_zero.mpr hnm] at h
    simp at h
  obtain ⟨j, hj⟩ := lastIdxOf_isSome backtick text hmem
  obtain ⟨hjlen, hjget, hjafter⟩ := lastIdxOf_spec backtick text j hj
  have hdropj : text.drop j = backtick :: text.drop (j + 1) := by
    cases hd : text.drop j with
    | nil =>
      have := List.drop_eq_nil_iff.mp hd
      omega
    | cons a t =>
      have h0 : text.get? j = some a := by
        have hgd := List.get?_drop text j 0
        rw [hd] at hgd
        simpa using hgd.symm
      rw [h0] at hjget
      have ha : a = backtick := by
        simpa using hjget
      have ht : t = text.drop (j + 1) := by
        have hdd : (text.drop j).drop 1 = text.drop (j + 1) := List.drop_drop 1 j text
        rw [hd] at hdd
        simpa using hdd
      rw [ha, ht]
  refine ⟨j, hj, ?_, ?_, parseLabelsInto_no_code _ _ _⟩
  · unfold pySlice
    rw [hdropj]
    have hlj : text.length - j = (text.length - (j + 1)) + 1 := by omega
    rw [hlj]
    rfl
  · unfold parseInlineWithoutComment
    have hsplit := piwcLoop_split text l c j hj text 0 0 0 false []
      (by simp) (by omega) (by simpa using h)
    rw [hsplit]
    have : j - 0 = j := by omega
    rw [this]

/-- Claim C9 witness: the text `a (backtick)b(backtick) (backtick)c` has
three backticks; the last opens an unmatched span. -/
theorem c9_unmatched_backtick_witness :
    ∃ j, lastIdxOf backtick "a `b` `c".data = some j ∧
      (pySlice "a `b` `c".data j "a `b` `c".data.length).head? = some backtick ∧
      parseInlineWithoutComment "a `b` `c".data 1 1 =
        parseInlineWithoutComment ("a `b` `c".data.take j) 1 1 ++
          parseLabelsInto (pySlice "a `b` `c".data j "a `b` `c".data.length) 1 (1 + j) ∧
      ∀ nd ∈ parseLabelsInto (pySlice "a `b` `c".data j "a `b` `c".data.length) 1 (1 + j),
        ∀ s loc, nd ≠ .InlineCode s loc :=
  c9_unmatched_backtick "a `b` `c".data 1 1 (by decide)

/-! ## Claim C8: the location invariant.  First, structural lemmas about the
location collectors and the tree-append operations. -/

theorem locOk_mono (m n : Nat) (loc : Loc) (h : m ≤ n) (hl : locOk m loc) : locOk n loc :=
  ⟨hl.1, Nat.le_trans hl.2 h⟩

theorem blocksLocs_append (a b : List Block) :
    blocksLocs (a ++ b) = blocksLocs a ++ blocksLocs b := by
  induction a with
  | nil => rfl
  | cons x a ih => simp [blocksLocs, ih]

theorem itemsLocs_append (a b : List BulletItem) :
    itemsLocs (a ++ b) = itemsLocs a ++ itemsLocs b := by
  induction a with
  | nil => rfl
  | cons x a ih => simp [itemsLocs, ih]

theorem blocksLocs_get? (blocks : List Block) (i : Nat) (blk : Block)
    (h : blocks.get? i = some blk) :
    ∀ loc ∈ blockLocs blk, loc ∈ blocksLocs blocks := by
  induction blocks generalizing i with
  | nil => simp at h
  | cons x bs ih =>
    cases i with
    | zero =>
      obtain rfl : x = blk := by simpa using h
      intro loc hloc
      simp [blocksLocs, List.mem_append]
      exact Or.inl hloc
    | succ i2 =>
      intro loc hloc
      simp only [blocksLocs, List.mem_append]
      exact Or.inr (ih i2 (by simpa using h) loc hloc)

theorem blocksLocs_set (blocks : List Block) (i : Nat) (x : Block) :
    ∀ loc ∈ blocksLocs (blocks.set i x),
      loc ∈ blockLocs x ∨ loc ∈ blocksLocs blocks := by
  induction blocks generalizing i with
  | nil => simp [blocksLocs]
  | cons b bs ih =>
    cases i with
    | zero =>
      intro loc hloc
      rw [List.set_cons_zero] at hloc
      simp only [blocksLocs, List.mem_append] at hloc
      rcases hloc with h | h
      · exact Or.inl h
      · exact Or.inr (by simp only [blocksLocs, List.mem_append]; exact Or.inr h)
    | succ i2 =>
      intro loc hloc
      rw [List.set_cons_succ] at hloc
      simp only [blocksLocs, List.mem_append] at hloc
      rcases hloc with h | h
      · exact Or.inr (by simp only [blocksLocs, List.mem_append]; exact Or.inl h)
      · rcases ih i2 loc h with h2 | h2
        · exact Or.inl h2
        · exact Or.inr (by simp only [blocksLocs, List.mem_append]; exact Or.inr h2)

theorem appendAt_locs (path : List Nat) (body : List Block) (b : Block) :
    ∀ loc ∈ blocksLocs (appendAt path body b),
      loc ∈ blocksLocs body ∨ loc ∈ blockLocs b := by
  induction path generalizing body with
  | nil =>
    intro loc hloc
    rw [show appendAt [] body b = body ++ [b] from rfl, blocksLocs_append] at hloc
    rcases List.mem_append.mp hloc with h | h
    · exact Or.inl h
    · right
      simpa [blocksLocs] using h
  | cons i rest ih =>
    intro loc hloc
    simp only [appendAt] at hloc
    cases hget : body.get? i with
    | none =>
      rw [hget] at hloc
      exact Or.inl hloc
    | some blk =>
      rw [hget] at hloc
      cases blk with
      | Section num t d lv bd loc0 =>
        rcases blocksLocs_set body i _ loc hloc with h | h
        · simp only [blockLocs, List.mem_cons, List.mem_append] at h
          rcases h with rfl | h
          · exact Or.inl (blocksLocs_get? body i _ hget loc (by simp [blockLocs]))
          · rcases ih bd loc h with h2 | h2
            · exact Or.inl (blocksLocs_get? body i _ hget loc
                (by simp only [blockLocs, List.mem_cons]; exact Or.inr h2))
            · exact Or.inr h2
        · exact Or.inl h
      | BlankLine loc0 => exact Or.inl hloc
      | WholeLineComment t loc0 => exact Or.inl hloc
      | FencedCodeBlock a b2 c2 loc0 => exact Or.inl hloc
      | Table a b2 c2 loc0 => exact Or.inl hloc
      | BulletList a loc0 => exact Or.inl hloc
      | Paragraph a loc0 => exact Or.inl hloc

theorem addBlock_locs (body : List Block) (stack : List OpenSec) (b : Block) :
    ∀ loc ∈ blocksLocs (addBlock body stack b),
      loc ∈ blocksLocs body ∨ loc ∈ blockLocs b := by
  cases stack with
  | nil =>
    intro loc hloc
    rw [show addBlock body [] b = body ++ [b] from rfl, blocksLocs_append] at hloc
    rcases List.mem_append.mp hloc with h | h
    · exact Or.inl h
    · right
      simpa [blocksLocs] using h
  | cons top rest => exact appendAt_locs top.path body b

theorem placeSection_locs (body : List Block) (stack : List OpenSec) (num : List Nat)
    (sec : Block) (lineNo : Nat) :
    ∀ loc ∈ blocksLocs (placeSection body stack num sec lineNo).1,
      loc ∈ blocksLocs body ∨ loc ∈ blockLocs sec := by
  unfold placeSection
  by_cases hpe : num.dropLast.isEmpty = true
  · rw [if_pos hpe]
    intro loc hloc
    simp only at hloc
    rw [blocksLocs_append] at hloc
    rcases List.mem_append.mp hloc with h | h
    · exact Or.inl h
    · right
      simpa [blocksLocs] using h
  · rw [if_neg hpe]
    cases hf : (stack.dropWhile fun e => decide (num.length ≤ e.number.length)).find?
        (fun e => e.number == num.dropLast) with
    | some p =>
      intro loc hloc
      simp only [hf] at hloc
      exact appendAt_locs p.path body sec loc hloc
    | none =>
      intro loc hloc
      simp only [hf] at hloc
      rw [blocksLocs_append] at hloc
      rcases List.mem_append.mp hloc with h | h
      · exact Or.inl h
      · right
        simpa [blocksLocs] using h

/-! Inline-lexer location lemmas: every inline node produced for a logical
line anchored at `lineNo` has a single-line location on `lineNo` with
non-decreasing columns. -/

def lineColOk (lineNo : Nat) (loc : Loc) : Prop :=
  loc.start.line = lineNo ∧ loc.stop.line = lineNo ∧ loc.start.column ≤ loc.stop.column

theorem lineColOk_locOk (lineNo n : Nat) (loc : Loc) (h : lineColOk lineNo loc)
    (hn : lineNo ≤ n) : locOk n loc := by
  obtain ⟨h1, h2, h3⟩ := h
  exact ⟨Or.inr (by rw [h1, h2]; exact ⟨rfl, h3⟩), by rw [h2]; exact hn⟩

theorem labelScan_bounds (rest : List Char) (i s e1 : Nat) (ident : Chars)
    (h : labelScan rest i = some (s, e1, ident)) :
    i ≤ s ∧ s < e1 ∧ e1 ≤ i + rest.length := by
  induction rest generalizing i with
  | nil => simp [labelScan] at h
  | cons c rest2 ih =>
    simp only [labelScan] at h
    by_cases hw : isWordCh c = true
    · rw [if_pos hw] at h
      by_cases hcolon : ((c :: rest2).get? ((c :: rest2).takeWhile isWordCh).length
          == some ':') = true
      · rw [if_pos hcolon] at h
        simp only [Option.some.injEq, Prod.mk.injEq] at h
        obtain ⟨rfl, rfl, rfl⟩ := h
        have hlt : ((c :: rest2).takeWhile isWordCh).length < (c :: rest2).length := by
          by_contra hge
          have hnone : (c :: rest2).get? ((c :: rest2).takeWhile isWordCh).length = none :=
            List.get?_eq_none.mpr (Nat.le_of_not_lt hge)
          rw [hnone] at hcolon
          simp at hcolon
        refine ⟨Nat.le_refl i, by omega, by simp at hlt ⊢; omega⟩
      · rw [if_neg hcolon] at h
        obtain ⟨h1, h2, h3⟩ := ih (i + 1) h
        exact ⟨by omega, h2, by simp; omega⟩
    · rw [if_neg hw] at h
      obtain ⟨h1, h2, h3⟩ := ih (i + 1) h
      exact ⟨by omega, h2, by simp; omega⟩

theorem labelSearchFrom_bounds (text : Chars) (pos s e1 : Nat) (ident : Chars)
    (h : labelSearchFrom text pos = some (s, e1, ident)) :
    pos ≤ s ∧ s < e1 ∧ e1 ≤ text.length := by
  unfold labelSearchFrom at h
  obtain ⟨h1, h2, h3⟩ := labelScan_bounds (text.drop pos) pos s e1 ident h
  have hne : text.drop pos ≠ [] := by
    intro hnil
    rw [hnil] at h
    simp [labelScan] at h
  have hlt : pos < text.length := by
    by_contra hge
    exact hne (List.drop_eq_nil_iff.mpr (Nat.le_of_not_lt hge))
  rw [List.length_drop] at h3
  exact ⟨h1, h2, by omega⟩

theorem parseLabelsLoop_ok (text : Chars) (lineNo b : Nat) :
    ∀ (fuel pos : Nat), ∀ nd ∈ parseLabelsLoop text lineNo b fuel pos,
      lineColOk lineNo (inlineLoc nd) := by
  intro fuel
  induction fuel with
  | zero =>
    intro pos nd hnd
    simp [parseLabelsLoop] at hnd
  | succ fuel ih =>
    intro pos nd hnd
    simp only [parseLabelsLoop] at hnd
    cases hls : labelSearchFrom text pos with
    | none =>
      rw [hls] at hnd
      by_cases hre : (pySlice text pos text.length).isEmpty = true
      · rw [if_pos hre] at hnd
        simp at hnd
      · rw [if_neg hre] at hnd
        obtain rfl : nd = .Text (pySlice text pos text.length)
            (makeLoc lineNo (b + pos) lineNo (b + text.length)) := by simpa using hnd
        have hpos : pos < text.length := by
          by_contra hge
          have : text.drop pos = [] := List.drop_eq_nil_iff.mpr (Nat.le_of_not_lt hge)
          rw [show pySlice text pos text.length = (text.drop pos).take (text.length - pos)
            from rfl, this] at hre
          simp at hre
        exact ⟨rfl, rfl, by simp [inlineLoc, makeLoc]; omega⟩
    | some m =>
      obtain ⟨s1, e1, ident⟩ := m
      rw [hls] at hnd
      obtain ⟨hb1, hb2, hb3⟩ := labelSearchFrom_bounds text pos s1 e1 ident hls
      rw [List.mem_append] at hnd
      rcases hnd with hpre | hrest2
      · by_cases hps : pos < s1
        · rw [if_pos hps] at hpre
          obtain rfl : nd = .Text (pySlice text pos s1)
              (makeLoc lineNo (b + pos) lineNo (b + s1)) := by simpa using hpre
          exact ⟨rfl, rfl, by simp [inlineLoc, makeLoc]; omega⟩
        · rw [if_neg hps] at hpre
          simp at hpre
      · rw [List.mem_cons] at hrest2
        rcases hrest2 with hlab | hrec
        · subst hlab
          refine ⟨rfl, rfl, ?_⟩
          simp only [inlineLoc, makeLoc]
          cases hls2 : labelSearchFrom text e1 with
          | none =>
            show b + s1 ≤ b + text.length
            omega
          | some m2 =>
            obtain ⟨s2, e2, ident2⟩ := m2
            obtain ⟨hc1, hc2, hc3⟩ := labelSearchFrom_bounds text e1 s2 e2 ident2 hls2
            show b + s1 ≤ b + s2
            omega
        · exact ih _ nd hrec

theorem parseLabelsInto_ok (text : Chars) (lineNo b : Nat) :
    ∀ nd ∈ parseLabelsInto text lineNo b, lineColOk lineNo (inlineLoc nd) := by
  intro nd hnd
  exact parseLabelsLoop_ok text lineNo b (text.length + 1) 0 nd hnd

theorem piwcLoop_ok (text : Chars) (lineNo sc : Nat) :
    ∀ (rest : List Char) (i cs ps : Nat) (inCode : Bool) (acc : List InlineNode),
      (inCode = true → cs ≤ i) →
      (∀ nd ∈ acc, lineColOk lineNo (inlineLoc nd)) →
      ∀ nd ∈ piwcLoop text lineNo sc rest i cs ps inCode acc,
        lineColOk lineNo (inlineLoc nd) := by
  intro rest
  induction rest with
  | nil =>
    intro i cs ps inCode acc hinv hacc nd hnd
    cases inCode with
    | true =>
      rw [piwc_nil_true] at hnd
      by_cases hlt : cs - 1 < text.length
      · rw [if_pos hlt] at hnd
        rcases List.mem_append.mp hnd with h | h
        · exact hacc nd h
        · exact parseLabelsInto_ok _ _ _ nd h
      · rw [if_neg hlt] at hnd
        exact hacc nd hnd
    | false =>
      rw [piwc_nil_false] at hnd
      by_cases hlt : ps < text.length
      · rw [if_pos hlt] at hnd
        rcases List.mem_append.mp hnd with h | h
        · exact hacc nd h
        · exact parseLabelsInto_ok _ _ _ nd h
      · rw [if_neg hlt] at hnd
        exact hacc nd hnd
  | cons c0 rest ih =>
    intro i cs ps inCode acc hinv hacc nd hnd
    by_cases hc0 : (c0 == backtick) = true
    · obtain rfl : c0 = backtick := beq_iff_eq.mp hc0
      cases inCode with
      | true =>
        rw [piwc_cons_close] at hnd
        refine ih (i + 1) cs (i + 1) false _ (by simp) ?_ nd hnd
        intro nd2 hnd2
        rcases List.mem_append.mp hnd2 with h | h
        · exact hacc nd2 h
        · obtain rfl : nd2 = .InlineCode (pySlice text cs i)
              (makeLoc lineNo (sc + cs) lineNo (sc + i)) := by simpa using h
          have hcsi := hinv rfl
          exact ⟨rfl, rfl, by simp [inlineLoc, makeLoc]; omega⟩
      | false =>
        rw [piwc_cons_open] at hnd
        refine ih (i + 1) (i + 1) ps true _ (fun _ => Nat.le_refl _) ?_ nd hnd
        intro nd2 hnd2
        by_cases hps : ps < i
        · rw [if_pos hps] at hnd2
          rcases List.mem_append.mp hnd2 with h | h
          · exact hacc nd2 h
          · exact parseLabelsInto_ok _ _ _ nd2 h
        · rw [if_neg hps] at hnd2
          exact hacc nd2 hnd2
    · have hc0f : (c0 == backtick) = false := by rwa [Bool.not_eq_true] at hc0
      rw [piwc_cons_skip text lineNo sc c0 rest i cs ps inCode acc hc0f] at hnd
      exact ih (i + 1) cs ps inCode acc (fun h => Nat.le_succ_of_le (hinv h)) hacc nd hnd

theorem inlineCommentScan_bounds (rest : List Char) (i : Nat) (inCode : Bool) (p : Nat)
    (h : inlineCommentScan rest i inCode = some p) : i ≤ p ∧ p < i + rest.length := by
  induction rest generalizing i inCode with
  | nil => simp [inlineCommentScan] at h
  | cons c rest2 ih =>
    simp only [inlineCommentScan] at h
    by_cases hbt : (c == backtick) = true
    · rw [if_pos hbt] at h
      by_cases hcond : (!(!inCode) && c == 'i' && rest2.head? == some '#') = true
      · rw [if_pos hcond] at h
        obtain rfl : i = p := by simpa using h
        simp
      · rw [if_neg hcond] at h
        obtain ⟨h1, h2⟩ := ih (i + 1) _ h
        exact ⟨by omega, by simp; omega⟩
    · rw [if_neg hbt] at h
      by_cases hcond : (!inCode && c == 'i' && rest2.head? == some '#') = true
      · rw [if_pos hcond] at h
        obtain rfl : i = p := by simpa using h
        simp
      · rw [if_neg hcond] at h
        obtain ⟨h1, h2⟩ := ih (i + 1) _ h
        exact ⟨by omega, by simp; omega⟩

theorem parseInline_ok (text : Chars) (allow : Bool) (lineNo sc : Nat) :
    ∀ nd ∈ parseInline text allow lineNo sc, lineColOk lineNo (inlineLoc nd) := by
  intro nd hnd
  unfold parseInline at hnd
  cases hallow : allow with
  | false =>
    rw [hallow] at hnd
    simp only at hnd
    exact piwcLoop_ok text lineNo sc text 0 0 0 false [] (by simp) (by simp) nd hnd
  | true =>
    rw [hallow] at hnd
    simp only at hnd
    cases hscan : inlineCommentScan text 0 false with
    | none =>
      rw [hscan] at hnd
      exact piwcLoop_ok text lineNo sc text 0 0 0 false [] (by simp) (by simp) nd hnd
    | some p =>
      rw [hscan] at hnd
      rcases List.mem_append.mp hnd with h | h
      · exact piwcLoop_ok (pySlice text 0 p) lineNo sc (pySlice text 0 p) 0 0 0 false []
          (by simp) (by simp) nd h
      · obtain ⟨h1, h2⟩ := inlineCommentScan_bounds text 0 false p hscan
        obtain rfl : nd = .InlineComment (lstripWS (pySlice text (p + 2) text.length))
            (makeLoc lineNo (sc + p) lineNo (sc + text.length)) := by simpa using h
        exact ⟨rfl, rfl, by simp [inlineLoc, makeLoc]; omega⟩

/-! Per-arm location lemmas for the block extractors. -/

theorem fenceScan_len (k : Nat) (rest : List Chars) :
    (fenceScan k rest).1.length + (if (fenceScan k rest).2.1 then 1 else 0)
      ≤ rest.length := by
  induction rest with
  | nil => simp [fenceScan]
  | cons l rest ih =>
    by_cases h : closesFence k l
    · simp [fenceScan, h]
    · simp only [fenceScan, h, Bool.false_eq_true, if_false, List.length_cons]
      split at ih <;> split <;> simp_all

theorem fenceScan_ct_empty (k : Nat) (rest : List Chars)
    (h : (fenceScan k rest).2.1 = false) : (fenceScan k rest).2.2 = [] := by
  induction rest with
  | nil => rfl
  | cons l rest ih =>
    by_cases hc : closesFence k l
    · simp [fenceScan, hc] at h
    · simp only [fenceScan, hc, Bool.false_eq_true, if_false] at h ⊢
      exact ih h

theorem fenceBlockStep_ok (lines : List Chars) (idx k : Nat) (info : Option Chars)
    (hidx : idx < lines.length) :
    ∀ loc ∈ blockLocs (fenceBlockStep lines idx k info).1, locOk lines.length loc := by
  intro loc hloc
  obtain rfl : loc = makeLoc (idx + 1) 1
      ((idx + 1) + (fenceScan k (lines.drop (idx + 1))).1.length +
        (if (fenceScan k (lines.drop (idx + 1))).2.1 then 1 else 0))
      (if !(fenceScan k (lines.drop (idx + 1))).2.2.isEmpty then
        (fenceScan k (lines.drop (idx + 1))).2.2.length + 1
      else
        match (fenceScan k (lines.drop (idx + 1))).1.getLast? with
        | some last => last.length + 1
        | none => 1) := by
    simpa [fenceBlockStep, blockLocs] using hloc
  have hlen := fenceScan_len k (lines.drop (idx + 1))
  rw [List.length_drop] at hlen
  have hcol : 1 ≤ (if !(fenceScan k (lines.drop (idx + 1))).2.2.isEmpty then
      (fenceScan k (lines.drop (idx + 1))).2.2.length + 1
    else
      match (fenceScan k (lines.drop (idx + 1))).1.getLast? with
      | some last => last.length + 1
      | none => 1) := by
    split
    · omega
    · split <;> omega
  constructor
  · rcases Nat.lt_or_ge (idx + 1)
      ((idx + 1) + (fenceScan k (lines.drop (idx + 1))).1.length +
        (if (fenceScan k (lines.drop (idx + 1))).2.1 then 1 else 0)) with hlt | hge
    · exact Or.inl hlt
    · right
      constructor
      · simp [makeLoc]
        omega
      · simpa [makeLoc] using hcol
  · simp [makeLoc]
    omega

theorem rowsLocs_mem (rs : List TableRow) (loc : Loc) (h : loc ∈ rowsLocs rs) :
    ∃ r ∈ rs, loc ∈ rowLocs r := by
  induction rs with
  | nil => simp [rowsLocs] at h
  | cons r rs ih =>
    rw [show rowsLocs (r :: rs) = rowLocs r ++ rowsLocs rs from rfl] at h
    rcases List.mem_append.mp h with h2 | h2
    · exact ⟨r, by simp, h2⟩
    · obtain ⟨r2, hr2, hl2⟩ := ih h2
      exact ⟨r2, by simp [hr2], hl2⟩

theorem parseTableRowsLoop_rows_ok (startLine : Nat) :
    ∀ (rows : List Chars) (i : Nat) (r : TableRow),
      r ∈ (parseTableRowsLoop startLine rows i).1 →
      ∀ loc ∈ rowLocs r, locOk (startLine + i + rows.length - 1) loc := by
  intro rows
  induction rows with
  | nil =>
    intro i r hr
    simp [parseTableRowsLoop] at hr
  | cons row rows ih =>
    intro i r hr
    rw [show (parseTableRowsLoop startLine (row :: rows) i).1 =
        ⟨pyRowCells row, some (makeLoc (startLine + i) 1 (startLine + i)
          ((rstripWS row).length + 1))⟩ :: (parseTableRowsLoop startLine rows (i + 1)).1
      from rfl] at hr
    rcases List.mem_cons.mp hr with rfl | hmem
    · intro loc hloc
      obtain rfl : loc = makeLoc (startLine + i) 1 (startLine + i)
          ((rstripWS row).length + 1) := by simpa [rowLocs] using hloc
      exact ⟨Or.inr ⟨rfl, by simp [makeLoc]⟩, by simp [makeLoc]⟩
    · intro loc hloc
      have := ih (i + 1) r hmem loc hloc
      exact locOk_mono _ _ loc (by simp; omega) this

theorem parseTable_node_ok (rows : List Chars) (startLine n : Nat)
    (h1 : startLine ≤ n) (h2 : startLine + rows.length ≤ n + 1) :
    ∀ loc ∈ blockLocs (parseTable rows startLine).1, locOk n loc := by
  intro loc hloc
  have hrowOk : ∀ r ∈ (parseTableRowsLoop startLine rows 0).1, ∀ l2 ∈ rowLocs r,
      locOk n l2 := by
    intro r hr l2 hl2
    have := parseTableRowsLoop_rows_ok startLine rows 0 r hr l2 hl2
    exact locOk_mono _ _ l2 (by omega) this
  have hmem : loc ∈ (makeLoc startLine 1
      (if rows.isEmpty then startLine else startLine + rows.length - 1)
      (match rows.getLast? with
       | some last => (rstripWS last).length + 1
       | none => 1)) ::
      (rowLocs ((parseTableRowsLoop startLine rows 0).1.head?.getD ⟨[], none⟩) ++
       optRowLocs ((parseTableRowsLoop startLine rows 0).1.get? 1) ++
       rowsLocs ((parseTableRowsLoop startLine rows 0).1.drop 2)) := hloc
  rcases List.mem_cons.mp hmem with rfl | hloc2
  · constructor
    · cases rows with
      | nil => exact Or.inr ⟨by simp [makeLoc], by simp [makeLoc]⟩
      | cons a as =>
        rcases Nat.lt_or_ge startLine (startLine + (a :: as).length - 1) with hlt | hge
        · left
          simpa [makeLoc] using hlt
        · right
          refine ⟨?_, ?_⟩
          · simp only [makeLoc, List.length_cons, List.isEmpty_cons, Bool.false_eq_true,
              if_false] at hge ⊢
            omega
          · simp only [makeLoc]
            split <;> omega
    · cases rows with
      | nil => simpa [makeLoc] using h1
      | cons a as =>
        simp only [makeLoc, List.isEmpty_cons, if_false, Bool.false_eq_true]
        simp at h2 ⊢
        omega
  · rcases List.mem_append.mp hloc2 with h12 | h3
    · rcases List.mem_append.mp h12 with hh | ha
      · cases hhead : (parseTableRowsLoop startLine rows 0).1 with
        | nil =>
          rw [hhead] at hh
          simp [rowLocs] at hh
        | cons r0 rs =>
          rw [hhead] at hh
          exact hrowOk r0 (by rw [hhead]; simp) loc (by simpa using hh)
      · cases hal : (parseTableRowsLoop startLine rows 0).1.get? 1 with
        | none =>
          rw [hal] at ha
          simp [optRowLocs] at ha
        | some r1 =>
          rw [hal] at ha
          exact hrowOk r1 (List.get?_mem hal) loc (by simpa [optRowLocs] using ha)
    · obtain ⟨r2, hr2, hl2⟩ := rowsLocs_mem _ loc h3
      exact hrowOk r2 (List.Sublist.mem hr2 (List.drop_sublist 2 _)) loc hl2

theorem contScan_bounds (base : Nat) :
    ∀ (rest : List Chars) (la : Nat),
      la ≤ (contScan base rest la).2 ∧ (contScan base rest la).2 ≤ la + rest.length := by
  intro rest
  induction rest with
  | nil => intro la; simp [contScan]
  | cons l rest ih =>
    intro la
    by_cases h1 : isBlankLine l = true
    · simp [contScan, h1]
    · by_cases h2 : (bulletMatch l).isSome = true
      · simp [contScan, h1, h2]
      · by_cases h3 : ((fenceMatch l).isSome || tableMatch l
            || (sectionMatch (stripInlineCommentForDetection l)).isSome) = true
        · simp [contScan, h1, h2, h3]
        · by_cases h4 : base ≤ countLeadingSpaces l
          · have hih := ih (la + 1)
            have hred : (contScan base (l :: rest) la).2 =
                (contScan base rest (la + 1)).2 := by
              simp [contScan, h1, h2, h3, h4]
            rw [hred]
            simp only [List.length_cons]
            omega
          · simp [contScan, h1, h2, h3, h4]

theorem rstripWS_append_cons_not_ws (u : Chars) (c : Char) (t : Chars)
    (h : isPySpace c = false) : rstripWS (u ++ c :: t) = u ++ c :: rstripWS t := by
  unfold rstripWS
  rw [List.reverse_append, List.reverse_cons, List.append_assoc, List.singleton_append,
    dropWhile_append_cons _ c _ h, List.reverse_append, List.reverse_cons,
    List.reverse_reverse, List.append_assoc, List.singleton_append]

theorem bulletMatch_inv (line : Chars) (indent : Nat) (m : Char) (text : Chars)
    (h : bulletMatch line = some (indent, m, text)) :
    indent = (line.takeWhile isPySpace).length ∧
    line.drop indent = m :: ' ' :: text ∧ isPySpace m = false := by
  simp only [bulletMatch] at h
  split at h
  · rename_i m2 rest2 heq
    by_cases hg : ((m2 == '-' || m2 == '*' || m2 == '+') && !rest2.isEmpty) = true
    · rw [if_pos hg] at h
      simp only [Option.some.injEq, Prod.mk.injEq] at h
      obtain ⟨rfl, rfl, rfl⟩ := h
      refine ⟨rfl, heq, ?_⟩
      simp only [Bool.and_eq_true, Bool.or_eq_true, beq_iff_eq] at hg
      rcases hg.1 with (rfl | rfl) | rfl <;> rfl
    · rw [if_neg hg] at h
      simp at h
  · simp at h

theorem bulletMatch_rstrip_len (line : Chars) (indent : Nat) (m : Char) (text : Chars)
    (h : bulletMatch line = some (indent, m, text)) :
    indent + 1 ≤ (rstripWS line).length := by
  obtain ⟨hind, hdrop, hm⟩ := bulletMatch_inv line indent m text h
  have hne : line.drop indent ≠ [] := by rw [hdrop]; simp
  have hle : indent ≤ line.length := by
    by_contra hgt
    exact hne (List.drop_eq_nil_iff.mpr (by omega))
  have hsplit : line = line.take indent ++ m :: ' ' :: text := by
    conv_lhs => rw [← List.take_append_drop indent line]
    rw [hdrop]
  have hlen : (line.take indent).length = indent := by
    rw [List.length_take]
    omega
  have hrs : rstripWS line = line.take indent ++ m :: rstripWS (' ' :: text) := by
    conv_lhs => rw [hsplit]
    exact rstripWS_append_cons_not_ws _ _ _ hm
  rw [hrs, List.length_append, List.length_cons, hlen]
  omega

def itemOk (n B : Nat) (it : BulletItem) : Prop :=
  locOk n it.loc ∧ B + 1 ≤ it.loc.stop.line ∧ 1 ≤ it.loc.stop.column ∧
  ∀ nd ∈ it.inline, locOk n (inlineLoc nd)

theorem bulletScan_ok (lines : List Chars) :
    ∀ (fuel idx B : Nat) (acc : List BulletItem),
      B ≤ idx → (∀ it ∈ acc, itemOk lines.length B it) →
      ∀ it ∈ (bulletScan lines fuel idx acc).1, itemOk lines.length B it := by
  intro fuel
  induction fuel with
  | zero => intro idx B acc hB hacc it hit; exact hacc it hit
  | succ fuel ih =>
    intro idx B acc hB hacc it hit
    simp only [bulletScan] at hit
    by_cases hidx : idx < lines.length
    · rw [if_pos hidx] at hit
      split at hit
      · exact hacc it hit
      · rename_i indent m text hbm
        obtain ⟨hc1, hc2⟩ := contScan_bounds (indent + 2) (lines.drop (idx + 1)) (idx + 1)
        rw [List.length_drop] at hc2
        refine ih _ B _ (by omega) ?_ it hit
        intro it2 hit2
        rcases List.mem_append.mp hit2 with h | h
        · exact hacc it2 h
        · obtain rfl := List.mem_singleton.mp h
          constructor
          · constructor
            · rcases Nat.lt_or_ge (idx + 1)
                  ((contScan (indent + 2) (lines.drop (idx + 1)) (idx + 1)).2 - 1 + 1)
                with hlt | hge
              · left
                simpa [makeLoc] using hlt
              · right
                have hrs := bulletMatch_rstrip_len _ _ _ _ hbm
                have heq : (contScan (indent + 2) (lines.drop (idx + 1)) (idx + 1)).2 =
                    idx + 1 := by omega
                constructor
                · simp [makeLoc]
                  omega
                · simp only [makeLoc, heq]
                  simp only [Nat.add_sub_cancel]
                  omega
            · simp [makeLoc]
              omega
          · refine ⟨?_, ?_, ?_⟩
            · simp [makeLoc]
              omega
            · simp [makeLoc]
            · intro nd hnd
              exact lineColOk_locOk _ _ _ (parseInline_ok _ _ _ _ nd hnd) (by omega)
    · rw [if_neg hidx] at hit
      exact hacc it hit

theorem paraScan_mem (rest : List Chars) :
    ∀ (idx : Nat) (p : Nat × Chars), p ∈ (paraScan rest idx).1 →
      idx ≤ p.1 ∧ p.1 < idx + rest.length := by
  induction rest with
  | nil => intro idx p hp; simp [paraScan] at hp
  | cons l rest ih =>
    intro idx p hp
    by_cases h1 : isBlankLine l = true
    · simp [paraScan, h1] at hp
    · by_cases h2 : ((fenceMatch l).isSome || tableMatch l
          || (sectionMatch (stripInlineCommentForDetection l)).isSome
          || commentMatch l || (bulletMatch l).isSome) = true
      · simp [paraScan, h1, h2] at hp
      · have hred : (paraScan (l :: rest) idx).1 =
            (idx, l) :: (paraScan rest (idx + 1)).1 := by
          simp [paraScan, h1, h2]
        rw [hred] at hp
        rcases List.mem_cons.mp hp with rfl | hmem
        · simp
        · obtain ⟨ha, hb⟩ := ih (idx + 1) p hmem
          exact ⟨by omega, by simp; omega⟩

theorem paraScan_head (rest : List Chars) (idx : Nat) (p0 : Nat × Chars)
    (tl : List (Nat × Chars)) (h : (paraScan rest idx).1 = p0 :: tl) : p0.1 = idx := by
  cases rest with
  | nil => simp [paraScan] at h
  | cons l rest =>
    by_cases h1 : isBlankLine l = true
    · simp [paraScan, h1] at h
    · by_cases h2 : ((fenceMatch l).isSome || tableMatch l
          || (sectionMatch (stripInlineCommentForDetection l)).isSome
          || commentMatch l || (bulletMatch l).isSome) = true
      · simp [paraScan, h1, h2] at h
      · have hred : (paraScan (l :: rest) idx).1 =
            (idx, l) :: (paraScan rest (idx + 1)).1 := by
          simp [paraScan, h1, h2]
        rw [hred] at h
        injection h with h1 h2
        rw [← h1]

theorem metadataScan_ok :
    ∀ (rest : List Chars) (idx : Nat), ∀ e ∈ (metadataScan rest idx).1,
      locOk (idx + rest.length) e.loc := by
  intro rest
  induction rest with
  | nil => intro idx e he; simp [metadataScan] at he
  | cons line rest ih =>
    intro idx e he
    simp only [metadataScan] at he
    by_cases h1 : isBlankLine line = true
    · rw [if_pos h1] at he
      simp at he
    · rw [if_neg h1] at he
      split at he
      · simp at he
      · split at he
        · simp at he
        · rcases List.mem_cons.mp he with rfl | hmem
          · refine ⟨Or.inr ⟨rfl, by simp [makeLoc]⟩, by simp [makeLoc]⟩
          · have := ih (idx + 1) e hmem
            exact locOk_mono _ _ _ (by simp; omega) this

theorem findFirstNonBlank_lt (lines : List Chars) (i : Nat)
    (h : findFirstNonBlank lines = some i) : i < lines.length := by
  induction lines generalizing i with
  | nil => simp [findFirstNonBlank] at h
  | cons l rest ih =>
    simp only [findFirstNonBlank] at h
    by_cases hb : (!isBlankLine l) = true
    · rw [if_pos hb] at h
      obtain rfl : 0 = i := by simpa using h
      simp
    · rw [if_neg hb] at h
      cases hf : findFirstNonBlank rest with
      | none => rw [hf] at h; simp at h
      | some j =>
        rw [hf] at h
        obtain rfl : j + 1 = i := by simpa using h
        have := ih j hf
        simp only [List.length_cons]
        omega

theorem itemsLocs_mem (its : List BulletItem) (loc : Loc) (h : loc ∈ itemsLocs its) :
    ∃ it ∈ its, loc ∈ itemLocs it := by
  induction its with
  | nil => simp [itemsLocs] at h
  | cons it its ih =>
    rw [show itemsLocs (it :: its) = itemLocs it ++ itemsLocs its from rfl] at h
    rcases List.mem_append.mp h with h2 | h2
    · exact ⟨it, by simp, h2⟩
    · obtain ⟨it2, hit2, hl2⟩ := ih h2
      exact ⟨it2, by simp [hit2], hl2⟩

theorem sectionArm_locs (line : Chars) (idx : Nat) (body : List Block)
    (stack : List OpenSec) (bs : List Block × List OpenSec)
    (h : (sectionArm line idx body stack).1 = some bs) :
    ∀ loc ∈ blocksLocs bs.1,
      loc ∈ blocksLocs body ∨
        loc = makeLoc (idx + 1) 1 (idx + 1) ((rstripWS line).length + 1) := by
  simp only [sectionArm] at h
  split at h
  · simp at h
  · split at h
    · simp at h
    · rename_i num title descRaw heq2
      simp only [Option.some.injEq] at h
      subst h
      intro loc hloc
      rcases placeSection_locs body stack num _ (idx + 1) loc hloc with h2 | h2
      · exact Or.inl h2
      · right
        simpa [blockLocs, blocksLocs] using h2

theorem blockLocs_bulletList (items : List BulletItem) (l : Loc) :
    blockLocs (Block.BulletList items l) = l :: itemsLocs items := rfl

theorem blockLocs_paragraph (inl : List InlineNode) (l : Loc) :
    blockLocs (Block.Paragraph inl l) = l :: inl.map inlineLoc := rfl

theorem bodyLoop_ok (lines : List Chars) :
    ∀ (fuel idx : Nat) (body : List Block) (stack : List OpenSec)
      (diags : List Diagnostic),
      (∀ loc ∈ blocksLocs body, locOk lines.length loc) →
      ∀ loc ∈ blocksLocs (bodyLoop lines fuel idx body stack diags).1,
        locOk lines.length loc := by
  intro fuel
  induction fuel with
  | zero => intro idx body stack diags hbody loc hloc; exact hbody loc hloc
  | succ fuel ih =>
    intro idx body stack diags hbody loc hloc
    simp only [bodyLoop] at hloc
    by_cases hidx : idx < lines.length
    · rw [if_pos hidx] at hloc
      by_cases hblank : isBlankLine (lines.getD idx []) = true
      · rw [if_pos hblank] at hloc
        refine ih _ _ _ _ ?_ loc hloc
        intro l2 hl2
        rcases addBlock_locs _ _ _ l2 hl2 with h | h
        · exact hbody l2 h
        · obtain rfl := List.mem_singleton.mp (by simpa [blockLocs] using h)
          exact ⟨Or.inr ⟨rfl, by simp [makeLoc]⟩, by simp [makeLoc]; omega⟩
      · rw [if_neg hblank] at hloc
        split at hloc
        · -- fence arm
          rename_i k infoRaw hfm
          refine ih _ _ _ _ ?_ loc hloc
          intro l2 hl2
          rcases addBlock_locs _ _ _ l2 hl2 with h | h
          · exact hbody l2 h
          · exact fenceBlockStep_ok lines idx k _ hidx l2 h
        · -- not a fence
          rename_i hfm
          by_cases htab : tableMatch (lines.getD idx []) = true
          · rw [if_pos htab] at hloc
            refine ih _ _ _ _ ?_ loc hloc
            intro l2 hl2
            rcases addBlock_locs _ _ _ l2 hl2 with h | h
            · exact hbody l2 h
            · refine parseTable_node_ok _ (idx + 1) lines.length (by omega) ?_ l2 h
              have hlen : ((lines.drop idx).takeWhile tableMatch).length ≤
                  (lines.drop idx).length :=
                List.Sublist.length_le (List.takeWhile_sublist _)
              rw [List.length_drop] at hlen
              omega
          · rw [if_neg htab] at hloc
            split at hloc
            · -- section arm fired
              rename_i bs hsa
              refine ih _ _ _ _ ?_ loc hloc
              intro l2 hl2
              rcases sectionArm_locs _ idx body stack bs hsa l2 hl2 with h | h
              · exact hbody l2 h
              · subst h
                exact ⟨Or.inr ⟨rfl, by simp [makeLoc]⟩, by simp [makeLoc]; omega⟩
            · -- section arm did not fire
              by_cases hcom : commentMatch (lines.getD idx []) = true
              · rw [if_pos hcom] at hloc
                refine ih _ _ _ _ ?_ loc hloc
                intro l2 hl2
                rcases addBlock_locs _ _ _ l2 hl2 with h | h
                · exact hbody l2 h
                · obtain rfl := List.mem_singleton.mp (by simpa [blockLocs] using h)
                  exact ⟨Or.inr ⟨rfl, by simp [makeLoc]⟩, by simp [makeLoc]; omega⟩
              · rw [if_neg hcom] at hloc
                split at hloc
                · -- bullet arm
                  rename_i p hbm
                  refine ih _ _ _ _ ?_ loc hloc
                  intro l2 hl2
                  rcases addBlock_locs _ _ _ l2 hl2 with h | h
                  · exact hbody l2 h
                  · have hitems : ∀ it ∈ (bulletScan lines (lines.length + 1) idx []).1,
                        itemOk lines.length idx it :=
                      bulletScan_ok lines (lines.length + 1) idx idx []
                        (Nat.le_refl idx) (by simp)
                    rw [blockLocs_bulletList] at h
                    rcases List.mem_cons.mp h with rfl | hmem
                    · cases hgl : (bulletScan lines (lines.length + 1) idx []).1.getLast? with
                      | none =>
                        exact ⟨Or.inr ⟨rfl, Nat.le_refl 1⟩, hidx⟩
                      | some it =>
                        have hok := hitems it (List.mem_of_mem_getLast? hgl)
                        obtain ⟨⟨hlex, hline⟩, hstop, hcol, hinl⟩ := hok
                        show locOk lines.length
                          (makeLoc (idx + 1) 1 it.loc.stop.line it.loc.stop.column)
                        simp only [locOk, makeLoc]
                        omega
                    · obtain ⟨it, hit, hl3⟩ := itemsLocs_mem _ l2 hmem
                      obtain ⟨⟨hlex, hline⟩, hstop, hcol, hinl⟩ := hitems it hit
                      rcases List.mem_cons.mp hl3 with rfl | hl4
                      · exact ⟨hlex, hline⟩
                      · obtain ⟨nd, hnd, rfl⟩ := List.mem_map.mp hl4
                        exact hinl nd hnd
                · -- paragraph arm
                  rename_i hbm
                  split at hloc
                  · exact ih _ _ _ _ hbody loc hloc
                  · rename_i p0 ps idx2 hpara
                    have hps1 : (paraScan (lines.drop idx) idx).1 = p0 :: ps := by
                      rw [hpara]
                    have hp0 : p0.1 = idx := paraScan_head _ idx p0 ps hps1
                    refine ih _ _ _ _ ?_ loc hloc
                    intro l2 hl2
                    rcases addBlock_locs _ _ _ l2 hl2 with h | h
                    · exact hbody l2 h
                    · have hlastmem : ((p0 :: ps).getLast?.getD p0) ∈ p0 :: ps := by
                        cases hgl : (p0 :: ps).getLast? with
                        | none => simp
                        | some q => simpa using List.mem_of_mem_getLast? hgl
                      have hlast := paraScan_mem (lines.drop idx) idx
                        ((p0 :: ps).getLast?.getD p0) (by rw [hps1]; exact hlastmem)
                      rw [List.length_drop] at hlast
                      rw [blockLocs_paragraph] at h
                      rcases List.mem_cons.mp h with rfl | hmem
                      · simp only [locOk, makeLoc]
                        omega
                      · obtain ⟨nd, hnd, rfl⟩ := List.mem_map.mp hmem
                        refine lineColOk_locOk _ _ _ (parseInline_ok _ _ _ _ nd hnd) ?_
                        omega
    · rw [if_neg hidx] at hloc
      exact hbody loc hloc

theorem parseHeader_loc (line : Chars) (n : Nat) (h : Header)
    (hh : (parseHeader line n).1 = some h) :
    h.loc = makeLoc n 1 n (line.length + 1) := by
  simp only [parseHeader] at hh
  split at hh
  · simp at hh
  · rename_i tag txt heq
    injection hh with hh2
    subst hh2
    rfl

/-- Claim C8: for every input and every AST node produced by
`parse_document` (blocks, table rows, bullet items, metadata entries, the
header, inline nodes), the node's location satisfies `start <= end` under
lexicographic order on `(line, column)`, and `end.line` never exceeds the
total number of input lines. -/
theorem c8_location_invariant (lines : List Chars) :
    ∀ loc ∈ docLocs (parseDocument lines), locOk lines.length loc := by
  intro loc hloc
  simp only [parseDocument] at hloc
  split at hloc
  · simp [docLocs, blocksLocs] at hloc
  · rename_i idx hf
    have hidx := findFirstNonBlank_lt lines idx hf
    simp only [docLocs] at hloc
    rcases List.mem_append.mp hloc with h1 | h1
    · rcases List.mem_append.mp h1 with h2 | h2
      · -- the header node
        split at h2
        · rename_i h hh
          obtain rfl := List.mem_singleton.mp h2
          rw [parseHeader_loc _ _ _ hh]
          exact ⟨Or.inr ⟨rfl, by simp [makeLoc]⟩, hidx⟩
        · simp at h2
      · -- metadata entries
        obtain ⟨e, he, rfl⟩ := List.mem_map.mp h2
        have hm := metadataScan_ok (lines.drop (idx + 1)) (idx + 1) e he
        refine locOk_mono _ _ _ ?_ hm
        rw [List.length_drop]
        omega
    · -- body blocks (and everything nested inside them)
      exact bodyLoop_ok lines (lines.length + 1) _ [] [] []
        (by simp [blocksLocs]) loc h1

theorem c8_location_invariant_witness :
    makeLoc 1 1 1 7 ∈ docLocs (parseDocument ["DOC: T".data]) ∧
      locOk (["DOC: T".data] : List Chars).length (makeLoc 1 1 1 7) :=
  ⟨by decide, c8_location_invariant ["DOC: T".data] (makeLoc 1 1 1 7) (by decide)⟩

end MarkXS
